import Mathlib

/-!
Verification of the rockdb catalog core: a shallow embedding in Lean 4 of the
lexer/parser, the three-pass deduplication engine and the text-surgery engine
of `build_catalog.py` and `dta_writer.py`, together with theorems settling the
specification's claims about them.

Text is modelled as `List Char`; Python's machine-independent `str` operations
are modelled character by character (ASCII case folding and whitespace, which
is what the data in question uses).
-/

namespace RockDb

/-- Python `str.isspace()` for the ASCII range (space, tab, newline, carriage
return, vertical tab, form feed). -/
def pyIsSpace (c : Char) : Bool :=
  c = ' ' || c = '\t' || c = '\n' || c = '\r' || c = '\x0b' || c = '\x0c'

/-- ASCII decimal digit, as used by Python's `str.isdigit` on this data. -/
def pyIsDigit (c : Char) : Bool :=
  '0' ≤ c && c ≤ '9'

/-- Python `str.isdigit()`: non-empty and all digits. -/
def pyStrIsDigit (s : List Char) : Bool :=
  !s.isEmpty && s.all pyIsDigit

/-- ASCII lower-casing, modelling Python's case-insensitive comparisons on
this ASCII data. -/
def lc (c : Char) : Char :=
  if 'A' ≤ c && c ≤ 'Z' then Char.ofNat (c.toNat + 32) else c

def lcs (s : List Char) : List Char := s.map lc

/-! ## Lexer (`build_catalog.tokenize`)

The Python `tokenize` loop is embedded as a character-at-a-time state machine:
outside any token (`norm`), inside a double-quoted string (`instr`), just after
a backslash inside a string (`esc`), or inside a bare token (`bare`).  This is
the small-step form of the `while i < len(text)` loop with its inner loops. -/

inductive TokSt where
  | norm : TokSt
  | instr : List Char → TokSt
  | esc : List Char → TokSt
  | bare : List Char → TokSt
deriving DecidableEq, Repr

/-- Close a bare token: a token of length > 1 that starts and ends with a
single quote has the quotes stripped. -/
def bareTok (acc : List Char) : List Char :=
  if 1 < acc.length && acc.head? = some '\'' && acc.getLast? = some '\'' then
    (acc.drop 1).dropLast
  else acc

/-- One lexer step: next state plus tokens emitted by this character. -/
def tokStep (st : TokSt) (c : Char) : TokSt × List (List Char) :=
  match st with
  | .norm =>
      if pyIsSpace c then (.norm, [])
      else if c = '(' || c = ')' then (.norm, [[c]])
      else if c = '"' then (.instr [], [])
      else (.bare [c], [])
  | .instr acc =>
      if c = '\\' then (.esc acc, [])
      else if c = '"' then (.norm, [acc])
      else (.instr (acc ++ [c]), [])
  | .esc acc => (.instr (acc ++ [c]), [])
  | .bare acc =>
      if pyIsSpace c then (.norm, [bareTok acc])
      else if c = '(' || c = ')' then (.norm, [bareTok acc, [c]])
      else (.bare (acc ++ [c]), [])

/-- End of input: an unterminated string is emitted as all text consumed so
far (a trailing backslash is taken literally, matching the Python fallthrough);
a pending bare token is closed. -/
def tokFlush (st : TokSt) : List (List Char) :=
  match st with
  | .norm => []
  | .instr acc => [acc]
  | .esc acc => [acc ++ ['\\']]
  | .bare acc => [bareTok acc]

def tokCore (st : TokSt) : List Char → List (List Char)
  | [] => tokFlush st
  | c :: cs =>
      let (st', ts) := tokStep st c
      ts ++ tokCore st' cs

/-- `tokenize(text)`: token stream of a text.  Tokens are plain strings; the
parentheses tokens are the one-character strings `(` and `)`, exactly as in
the Python source. -/
def tokenize (text : List Char) : List (List Char) :=
  tokCore .norm text

/-! ## Parser (`build_catalog.parse_tokens`) -/

inductive Node where
  | int : Int → Node
  | str : List Char → Node
  | list : List Node → Node
deriving Repr

/-- The leaf value of a non-paren token: digit strings become integers. -/
def atomOf (t : List Char) : Node :=
  if pyStrIsDigit t then
    .int (t.foldl (fun a c => 10 * a + (c.toNat - '0'.toNat)) 0)
  else .str t

/-- Parse tokens into items until a closing paren or end of input, returning
the items and the remaining tokens (the closing paren consumed).  Fuel-indexed
structural embedding of the recursive `parse()`; `parseMany` is run with fuel
at least the token-list length, which is always enough. -/
def parseMany : Nat → List (List Char) → List Node × List (List Char)
  | 0, ts => ([], ts)
  | _ + 1, [] => ([], [])
  | fuel + 1, t :: rest =>
      if t = [')'] then ([], rest)
      else if t = ['('] then
        let (inner, r) := parseMany fuel rest
        let (sib, r2) := parseMany fuel r
        (.list inner :: sib, r2)
      else
        let (sib, r2) := parseMany fuel rest
        (atomOf t :: sib, r2)

/-- Top level of `parse_tokens`: tokens other than `(` are skipped, each `(`
opens a list parsed by `parseMany`. -/
def parseTokensF : Nat → List (List Char) → List Node
  | 0, _ => []
  | _ + 1, [] => []
  | fuel + 1, t :: rest =>
      if t = ['('] then
        let (inner, r) := parseMany rest.length rest
        .list inner :: parseTokensF fuel r
      else parseTokensF fuel rest

def parseTokens (ts : List (List Char)) : List Node :=
  parseTokensF (ts.length + 1) ts

/-- `parse_tokens(tokenize(text))`, the structural read of a text. -/
def parseText (text : List Char) : List Node :=
  parseTokens (tokenize text)

/-! ## Deduplication engine (`build_catalog.py`)

A `Song` is the record built by extraction: `year` and `song_id` hold an
integer or are empty (Python `""`), the remaining fields are strings. -/

structure Song where
  song_key : String
  song_id : Option Int
  name : String
  artist : String
  album : String
  year : Option Int
  decade : String
  genre : String
  sub_genre : String
  pack_name : String
  pack_type : String
  source_file : String
deriving DecidableEq, Repr

/-- `PACK_PRIORITY.get(pack_type, 99)`. -/
def packPriority (t : String) : Nat :=
  if t = "disc" then 1
  else if t = "export" then 2
  else if t = "dlc" then 3
  else if t = "custom" then 4
  else if t = "other" then 5
  else 99

/-- `re.match(r'^[A-Z]{1,2}\d{5,}', s)` as a Boolean: the string starts with
one or two ASCII uppercase letters followed by at least five ASCII digits. -/
def upperAscii (c : Char) : Bool := 'A' ≤ c && c ≤ 'Z'

def startsDigits5 : List Char → Bool
  | d1 :: d2 :: d3 :: d4 :: d5 :: _ =>
      pyIsDigit d1 && pyIsDigit d2 && pyIsDigit d3 && pyIsDigit d4 && pyIsDigit d5
  | _ => false

def isContentId (s : String) : Bool :=
  match s.data with
  | c1 :: rest =>
      upperAscii c1 &&
        (startsDigits5 rest ||
          (match rest with
           | c2 :: rest2 => upperAscii c2 && startsDigits5 rest2
           | [] => false))
  | [] => false

/-- `_dedup_priority(song)`: lower is preferred (lexicographically). -/
def dedupPriority (s : Song) : Nat × Nat :=
  (packPriority s.pack_type, if isContentId s.pack_name then 1 else 0)

/-- Strict lexicographic order on priority pairs (Python tuple `<`). -/
def prioLt (a b : Nat × Nat) : Bool :=
  a.1 < b.1 || (a.1 = b.1 && a.2 < b.2)

def prioLe (a b : Nat × Nat) : Prop :=
  a.1 < b.1 ∨ (a.1 = b.1 ∧ a.2 ≤ b.2)

/-- Python truthiness of the mergeable fields: `""` and `0` are falsy. -/
def truthyY : Option Int → Bool
  | none => false
  | some n => n ≠ 0

def truthyS (s : String) : Bool := s ≠ ""

/-- One step of the inheritance loop in `_best_of`: for each of
`year, album, genre, sub_genre, decade`, if the kept record's value is falsy
and the dropped member's is truthy, copy it. -/
def mergeInto (b s : Song) : Song :=
  { b with
    year := if !truthyY b.year && truthyY s.year then s.year else b.year
    album := if !truthyS b.album && truthyS s.album then s.album else b.album
    genre := if !truthyS b.genre && truthyS s.genre then s.genre else b.genre
    sub_genre :=
      if !truthyS b.sub_genre && truthyS s.sub_genre then s.sub_genre
      else b.sub_genre
    decade :=
      if !truthyS b.decade && truthyS s.decade then s.decade else b.decade }

/-- Songs are processed as tagged `(position, song)` pairs: Python resolves
the kept member of a group by object identity (`is`), which the distinct
position tags model. -/
abbrev TSong := Nat × Song

/-- `min(songs, key=_dedup_priority)`: the first element attaining the least
priority. -/
def bestElem (g : List TSong) : Option TSong :=
  match g with
  | [] => none
  | h :: t =>
      some (t.foldl
        (fun b x => if prioLt (dedupPriority x.2) (dedupPriority b.2) then x else b) h)

/-- `_best_of(songs)`: the best member of the group with the missing fields
inherited, in order, from every other member. -/
def mergedBest (g : List TSong) : Option Song :=
  (bestElem g).map fun b =>
    ((g.filter (fun x => x.1 ≠ b.1)).map (·.2)).foldl mergeInto b.2

structure Dropped where
  song_key : String
  name : String
  artist : String
  source_file : String
  pack_name : String
  kept_pack : String
deriving DecidableEq, Repr

/-- `_make_dropped(song, kept_pack)`. -/
def makeDropped (s : Song) (kept : String) : Dropped :=
  ⟨s.song_key, s.name, s.artist, s.source_file, s.pack_name, kept⟩

/-- The fate of one song in a pass: kept (possibly as the group's merged
best member) or not.  A song in a group of size ≥ 2 survives exactly when it
is the group's best member — Python's `id_best[sid] is song` object-identity
test, modelled by the position tag. -/
def passKeep {K : Type} [DecidableEq K] (key : Song → Option K)
    (l : List TSong) (ts : TSong) : Option TSong :=
  match key ts.2 with
  | none => some ts
  | some k =>
      let g := l.filter fun x => key x.2 = some k
      if g.length ≤ 1 then some ts
      else if some ts.1 = (bestElem g).map (·.1) then
        (mergedBest g).map fun m => (ts.1, m)
      else none

/-- The audit record of one song dropped by a pass, annotated with the kept
member's pack name. -/
def passDrop {K : Type} [DecidableEq K] (key : Song → Option K)
    (l : List TSong) (ts : TSong) : Option Dropped :=
  match key ts.2 with
  | none => none
  | some k =>
      let g := l.filter fun x => key x.2 = some k
      if g.length ≤ 1 then none
      else if some ts.1 = (bestElem g).map (·.1) then none
      else (mergedBest g).map fun m => makeDropped ts.2 m.pack_name

/-- One deduplication pass.  `key` gives the grouping key of a song, `none`
for songs exempt from this pass.  This is the common shape of the three pass
loops in `build_catalog`. -/
def passBy {K : Type} [DecidableEq K] (key : Song → Option K)
    (l : List TSong) : List TSong × List Dropped :=
  (l.filterMap (passKeep key l), l.filterMap (passDrop key l))

/-- Pass 1 key: a positive integer `song_id`. -/
def keyId (s : Song) : Option Int :=
  match s.song_id with
  | some n => if 0 < n then some n else none
  | none => none

/-- Pass 2 key: the `song_key` string (every song has one). -/
def keyKey (s : Song) : Option String := some s.song_key

/-- Python `.strip()`: leading and trailing whitespace removed. -/
def pyStrip (s : List Char) : List Char :=
  ((s.dropWhile pyIsSpace).reverse.dropWhile pyIsSpace).reverse

/-- Python `.strip().lower()` on ASCII data. -/
def normMeta (s : String) : String :=
  ⟨lcs (pyStrip s.data)⟩

/-- Pass 3 key: normalized `(artist, name, album)`; records with empty
normalized artist or name get the sentinel key
`('__no_meta__', song_key, '')`. -/
def keyMeta (s : Song) : Option (String × String × String) :=
  if normMeta s.artist = "" || normMeta s.name = "" then
    some ("__no_meta__", s.song_key, "")
  else some (normMeta s.artist, normMeta s.name, normMeta s.album)

/-- The three-pass deduplication of `build_catalog`: by `song_id`, then by
`song_key`, then by normalized metadata, each pass operating on the survivor
set of the previous one; returns the kept songs (in order) and the audit
trail of dropped records. -/
def dedup (songs : List Song) : List Song × List Dropped :=
  let l0 := songs.enum
  let (l1, d1) := passBy keyId l0
  let (l2, d2) := passBy keyKey l1
  let (l3, d3) := passBy keyMeta l2
  (l3.map (·.2), d1 ++ d2 ++ d3)

/-! ## Entry-Bounds Locator (`dta_writer.find_song_entry_bounds`)

The anchor is `re.search(r"\n\(\s*'?" + re.escape(key) + r"'?", text, IGNORECASE)`;
only `match.start()` is used, so the anchor is modelled as the least position
where the pattern can match.  `\s` is Python's whitespace class, `'?` is an
optional quote, and the trailing `'?` constrains nothing after the key. -/

/-- Case-insensitive prefix test (`re.IGNORECASE` on ASCII). -/
def ciPrefix (key s : List Char) : Bool :=
  lcs key <+: lcs s

/-- Does `\s*'?key` match at the start of `s` (for some number of whitespace
characters)? -/
def wsQuoteKey (key : List Char) : List Char → Bool
  | [] => ciPrefix key []
  | c :: rest =>
      ciPrefix key (c :: rest) ||
      (c = '\'' && ciPrefix key rest) ||
      (pyIsSpace c && wsQuoteKey key rest)

/-- Does the anchor pattern match at the start of `s`? -/
def anchorHere (key : List Char) (s : List Char) : Bool :=
  match s with
  | c1 :: c2 :: rest => c1 = '\n' && c2 = '(' && wsQuoteKey key rest
  | _ => false

/-- Least index at which the anchor pattern matches (`re.search`). -/
def findAnchorAux (key : List Char) : List Char → Nat → Option Nat
  | s, i =>
      if anchorHere key s then some i
      else match s with
        | [] => none
        | _ :: rest => findAnchorAux key rest (i + 1)

def findAnchor (key text : List Char) : Option Nat :=
  findAnchorAux key text 0

/-- The scanner state of the locator's loop: paren depth (Python lets it go
negative), the in-string flag and the escape flag. -/
structure ScanSt where
  depth : Int
  instr : Bool
  esc : Bool
deriving DecidableEq, Repr

/-- One character of the depth-counting loop, returning either the new state
or the index at which depth returned to zero on a `)`. -/
def scanStep (st : ScanSt) (c : Char) : ScanSt ⊕ Unit :=
  if st.esc then .inl { st with esc := false }
  else if c = '\\' then .inl { st with esc := true }
  else if c = '"' then .inl { st with instr := !st.instr }
  else if !st.instr && c = '(' then .inl { st with depth := st.depth + 1 }
  else if !st.instr && c = ')' then
    if st.depth - 1 = 0 then .inr () else .inl { st with depth := st.depth - 1 }
  else .inl st

/-- Run the loop over the remaining characters, `i` being the index of the
first of them; returns the index of the closing paren, or `none` if depth
never returns to zero before end of input. -/
def scanClose (st : ScanSt) : List Char → Nat → Option Nat
  | [], _ => none
  | c :: rest, i =>
      match scanStep st c with
      | .inl st' => scanClose st' rest (i + 1)
      | .inr _ => some i

/-- Number of leading `' '`/`'\t'` characters (the trailing-whitespace
extension of the span end). -/
def extendWs : List Char → Nat
  | c :: rest => if c = ' ' || c = '\t' then extendWs rest + 1 else 0
  | [] => 0

/-- `find_song_entry_bounds(text, song_key)`: the span of the entry, from the
newline before its opening paren to just past its closing paren and any
trailing same-line horizontal whitespace. -/
def findSongEntryBounds (text key : List Char) : Option (Nat × Nat) :=
  match findAnchor key text with
  | none => none
  | some s =>
      match scanClose ⟨0, false, false⟩ (text.drop (s + 1)) (s + 1) with
      | none => none
      | some i => some (s, i + 1 + extendWs (text.drop (i + 1)))

/-! ## Text Mutator: removal (`dta_writer.remove_songs_from_dta`)

The pure core of the function: file I/O and the backup copy are the
collaborator's concern.  Spans are located for every key against the original
text, sorted by start offset descending (Python's stable `sort` with
`reverse=True`, realised here by a stable insertion sort, whose output any
stable sort uniquely determines) and spliced out rightmost-first. -/

/-- Stable descending-by-start insertion: an element is placed after every
earlier element with a greater-or-equal start. -/
def insertDesc (x : (Nat × Nat) × List Char) :
    List ((Nat × Nat) × List Char) → List ((Nat × Nat) × List Char)
  | [] => [x]
  | y :: ys => if y.1.1 < x.1.1 then x :: y :: ys else y :: insertDesc x ys

def sortDesc : List ((Nat × Nat) × List Char) → List ((Nat × Nat) × List Char)
  | [] => []
  | x :: xs => insertDesc x (sortDesc xs)

/-- Remove the character range `[s, e)` from a text (`text[:start] + text[end:]`). -/
def splice (text : List Char) (s e : Nat) : List Char :=
  text.take s ++ text.drop e

/-- `remove_songs_from_dta`, pure core: returns the mutated text, the keys
removed (in splice order) and the keys not found. -/
def removeSongsFromDta (text : List Char) (keys : List (List Char)) :
    List Char × List (List Char) × List (List Char) :=
  let located := keys.filterMap fun k =>
    (findSongEntryBounds text k).map fun b => (b, k)
  let notFound := keys.filter fun k => findSongEntryBounds text k = none
  let sorted := sortDesc located
  let mutated := sorted.foldl (fun t x => splice t x.1.1 x.1.2) text
  (mutated, sorted.map (·.2), notFound)

/-! ## Serializer (`dta_writer.format_dta_entries`) -/

/-- The quoting condition of `format_value` for strings: contains a space or
one of `(`, `)`, `"`, `\`. -/
def needsQuote (s : List Char) : Bool :=
  s.any fun c => c = ' ' || c = '(' || c = ')' || c = '"' || c = '\\'

/-- `val.replace('\\', '\\\\').replace('"', '\\"')`: the two sequential
replacements double every backslash and then escape every double quote, which
is the single pass below (the second replacement only acts on `"` characters,
which the first leaves alone). -/
def escapeDta (s : List Char) : List Char :=
  s.flatMap fun c =>
    if c = '\\' then ['\\', '\\'] else if c = '"' then ['\\', '"'] else [c]

/-- Decimal digits of a natural number, most significant first (fuel-indexed
model of Python's `str(int)`; `natDecAux (n+1) n` is always fully fuelled). -/
def natDecAux : Nat → Nat → List Char
  | 0, _ => []
  | fuel + 1, n =>
      if n < 10 then [Char.ofNat ('0'.toNat + n)]
      else natDecAux fuel (n / 10) ++ [Char.ofNat ('0'.toNat + n % 10)]

/-- Python `str(val)` for an integer value. -/
def intDec (i : Int) : List Char :=
  match i with
  | .ofNat n => natDecAux (n + 1) n
  | .negSucc n => '-' :: natDecAux (n + 2) (n + 1)

mutual

/-- `format_value(val, indent)` for the inline (`indent != 0`) case, and the
leaf cases shared with the top level.  Strings needing quoting are escaped
and double-quoted; other strings are emitted as they are (the Python source
distinguishes strings already starting with `'`, but returns `val` either
way).  The empty list renders as `()` on both the explicit empty branch and
the general one. -/
def formatValue : Node → List Char
  | .int i => intDec i
  | .str s => if needsQuote s then '"' :: escapeDta s ++ ['"'] else s
  | .list vs =>
      '(' :: List.intercalate [' '] (formatValues vs) ++ [')']

def formatValues : List Node → List (List Char)
  | [] => []
  | v :: vs => formatValue v :: formatValues vs

end

/-- `format_value(entry, 0)`: a top-level entry is rendered as a multi-line
block; the first child becomes the song key, wrapped in single quotes unless
its rendering already starts with one; the remaining children are indented
one per line. -/
def formatTop : Node → List Char
  | .list [] => "()".data
  | .list (v :: vs) =>
      let fi := formatValue v
      let line0 :=
        if fi.head? = some '\'' then "(   ".data ++ fi
        else "(   '".data ++ fi ++ ['\'']
      line0 ++ (vs.flatMap fun w => '\n' :: ("   ".data ++ formatValue w))
        ++ ['\n', ')']
  | v => formatValue v

/-- `format_dta_entries(entries)`: newline-joined top-level renderings plus a
trailing newline. -/
def formatDtaEntries (entries : List Node) : List Char :=
  List.intercalate ['\n'] (entries.map formatTop) ++ ['\n']

/-! ## Text Mutator: patching (`dta_writer.patch_song_metadata`)

The field-replacement regex
`\(\s*'?FIELD'?\s+(?:"[^"]*"|'[^']*'|\S+)\)` (IGNORECASE) is embedded as a
backtracking matcher with the regex engine's preferences: greedy `\s*`/`\s+`,
the optional quotes preferring presence, the alternation in source order and
greedy-longest `\S+`. -/

/-- `\S+\)` with `\S+` greedy-longest: returns the consumed length. -/
def nsValue : List Char → Option Nat
  | [] => none
  | c :: rest =>
      if pyIsSpace c then none
      else
        match nsValue rest with
        | some k => some (k + 1)
        | none => match rest with
                  | ')' :: _ => some 2
                  | _ => none

/-- `"[^"]*"\)`: a double-quoted run immediately followed by `)`. -/
def dqValue (s : List Char) : Option Nat :=
  match s with
  | '"' :: rest =>
      let inside := rest.takeWhile (fun c => c ≠ '"')
      match rest.drop inside.length with
      | '"' :: ')' :: _ => some (inside.length + 3)
      | _ => none
  | _ => none

/-- `'[^']*'\)`: a single-quoted run immediately followed by `)`. -/
def sqValue (s : List Char) : Option Nat :=
  match s with
  | '\'' :: rest =>
      let inside := rest.takeWhile (fun c => c ≠ '\'')
      match rest.drop inside.length with
      | '\'' :: ')' :: _ => some (inside.length + 3)
      | _ => none
  | _ => none

/-- The value alternation, in the pattern's order. -/
def fieldValue (s : List Char) : Option Nat :=
  (dqValue s).orElse fun _ => (sqValue s).orElse fun _ => nsValue s

/-- `\s+VALUE\)`: at least one whitespace character, greedy. -/
def ws1Value : List Char → Option Nat
  | [] => none
  | c :: rest => if pyIsSpace c then (wsMoreValue rest).map (· + 1) else none
where
  /-- `\s*VALUE\)` with `\s*` greedy. -/
  wsMoreValue : List Char → Option Nat
    | [] => fieldValue []
    | c :: rest =>
        if pyIsSpace c then
          match (wsMoreValue rest).map (· + 1) with
          | some k => some k
          | none => fieldValue (c :: rest)
        else fieldValue (c :: rest)

/-- `'?\s+VALUE\)` (the quote after the field name). -/
def quote2Value (s : List Char) : Option Nat :=
  match s with
  | '\'' :: rest =>
      match (ws1Value rest).map (· + 1) with
      | some k => some k
      | none => ws1Value s
  | _ => ws1Value s

/-- `FIELD'?\s+VALUE\)` (case-insensitive field name). -/
def fieldTail (field s : List Char) : Option Nat :=
  if ciPrefix field s then
    (quote2Value (s.drop field.length)).map (· + field.length)
  else none

/-- `\s*'?FIELD'?\s+VALUE\)` with the leading `\s*` greedy. -/
def afterParen (field : List Char) : List Char → Option Nat
  | [] => quoteField field []
  | c :: rest =>
      if pyIsSpace c then
        match (afterParen field rest).map (· + 1) with
        | some k => some k
        | none => quoteField field (c :: rest)
      else quoteField field (c :: rest)
where
  /-- `'?FIELD'?\s+VALUE\)`. -/
  quoteField (field s : List Char) : Option Nat :=
    match s with
    | '\'' :: rest =>
        match (fieldTail field rest).map (· + 1) with
        | some k => some k
        | none => fieldTail field s
    | _ => fieldTail field s

/-- Length of the whole-pattern match at the start of `s`, if any. -/
def fieldMatchAt (field s : List Char) : Option Nat :=
  match s with
  | '(' :: rest => (afterParen field rest).map (· + 1)
  | _ => none

/-- Leftmost match: position and length (`re.subn` with `count=1`).  The
match is attempted at every position, the empty suffix included (where the
pattern, which must consume a `(`, never matches). -/
def fieldSearchAux (field : List Char) : List Char → Nat → Option (Nat × Nat)
  | [], i =>
      match fieldMatchAt field [] with
      | some len => some (i, len)
      | none => none
  | c :: rest, i =>
      match fieldMatchAt field (c :: rest) with
      | some len => some (i, len)
      | none => fieldSearchAux field rest (i + 1)

def fieldSearch (field s : List Char) : Option (Nat × Nat) :=
  fieldSearchAux field s 0

/-- `re.subn`'s processing of the replacement template: a backslash makes the
following character literal (the templates built here only ever put `\` or
`"` after a backslash, on which this is exactly Python's rule). -/
def templExpand : List Char → List Char
  | '\\' :: c :: rest => c :: templExpand rest
  | c :: rest => c :: templExpand rest
  | [] => []

/-- A field value to patch in: an integer or a string (Python passes either). -/
inductive FVal where
  | int : Int → FVal
  | str : List Char → FVal
deriving DecidableEq, Repr

/-- Empty values are skipped by the patch loop. -/
def FVal.isEmpty : FVal → Bool
  | .str [] => true
  | _ => false

/-- `str(new_value)` for integers, `'"' + escaped + '"'` for strings. -/
def formatFVal : FVal → List Char
  | .int i => intDec i
  | .str s => '"' :: escapeDta s ++ ['"']

/-- Patch one field inside an entry's text: replace the first regex match by
the new field text, or insert the new field text before the entry's last `)`
when there is no match.  Returns the new entry text and whether the field was
replaced (`true`) or inserted/skipped. -/
def patchField (entry : List Char) (field : List Char) (v : FVal) :
    List Char × Bool :=
  if v.isEmpty then (entry, false)
  else
    let newFieldText :=
      '(' :: '\'' :: field ++ '\'' :: ' ' :: formatFVal v ++ [')']
    match fieldSearch field entry with
    | some (i, len) =>
        (entry.take i ++ templExpand newFieldText ++ entry.drop (i + len), true)
    | none =>
        match (List.range entry.length).filter
            (fun j => entry.get? j = some ')') |>.getLast? with
        | some lastParen =>
            (entry.take lastParen ++ '\n' :: "   ".data ++ newFieldText
              ++ entry.drop lastParen, false)
        | none => (entry, false)

/-- `patch_song_metadata`, pure core: locate the entry, patch each non-empty
field within its span, splice the patched entry back.  Returns the new text
(unchanged when the entry is not found). -/
def patchSongMetadata (text key : List Char) (fields : List (List Char × FVal)) :
    List Char :=
  match findSongEntryBounds text key with
  | none => text
  | some (s, e) =>
      let entry := (text.take e).drop s
      let entry' := fields.foldl (fun acc f => (patchField acc f.1 f.2).1) entry
      text.take s ++ entry' ++ text.drop e

/-! ## Specification-side definitions

The definitions below are written from the wording of the claims, to be
compared with the embedded code. -/

/-- The claims' content-ID pattern, stated as a decomposition: one or two
ASCII uppercase letters followed by at least five ASCII digits. -/
def contentIdSpec (p : String) : Prop :=
  ∃ us ds rest : List Char, p.data = us ++ ds ++ rest ∧
    (us.length = 1 ∨ us.length = 2) ∧ us.all upperAscii ∧
    5 ≤ ds.length ∧ ds.all pyIsDigit

/-- Is position `i` inside one of the spans? -/
def covered (spans : List (Nat × Nat)) (i : Nat) : Bool :=
  spans.any fun p => p.1 ≤ i && i < p.2

/-- The characters from index `i` on, keeping exactly those whose index is
covered by no span. -/
def exciseGo (spans : List (Nat × Nat)) : Nat → List Char → List Char
  | _, [] => []
  | i, c :: cs =>
      if covered spans i then exciseGo spans (i + 1) cs
      else c :: exciseGo spans (i + 1) cs

/-- The text with exactly the given spans excised and everything else kept:
character `i` survives iff it is covered by no span. -/
def excise (spans : List (Nat × Nat)) (text : List Char) : List Char :=
  exciseGo spans 0 text

/-- Two half-open spans are disjoint. -/
def spanDisjoint (a b : Nat × Nat) : Prop :=
  a.2 ≤ b.1 ∨ b.2 ≤ a.1

instance : DecidableRel spanDisjoint := fun a b =>
  inferInstanceAs (Decidable (a.2 ≤ b.1 ∨ b.2 ≤ a.1))

/-! Wellformedness of composed entries for the serialize/parse round trip. -/

/-- A character that can sit inside a bare token: not whitespace, not a
paren, not a quote, not a backslash. -/
def tokenSafeChar (c : Char) : Bool :=
  !pyIsSpace c && c ≠ '(' && c ≠ ')' && c ≠ '"' && c ≠ '\\'

/-- A string that survives the bare (unquoted) emission path: a non-empty
token of safe characters that is not all digits and is not stripped of
single quotes by the lexer. -/
def bareSafe (s : List Char) : Bool :=
  !s.isEmpty && s.all tokenSafeChar && !pyStrIsDigit s &&
    !(1 < s.length && s.head? = some '\'' && s.getLast? = some '\'')

/-- A string node that round-trips: either it is emitted quoted (then only
the one-character paren tokens collide with the parser's delimiters), or it
must be a bare-safe token. -/
def goodStr (s : List Char) : Bool :=
  if needsQuote s then s ≠ ['('] && s ≠ [')'] else bareSafe s

mutual

/-- A composable node: nonnegative integers, round-tripping strings, lists
of such. -/
def goodNode : Node → Bool
  | .int i => 0 ≤ i
  | .str s => goodStr s
  | .list vs => goodNodes vs

def goodNodes : List Node → Bool
  | [] => true
  | v :: vs => goodNode v && goodNodes vs

end

/-- A song key that round-trips through the quote-wrapping emission of the
entry's first line. -/
def goodKey (s : List Char) : Bool :=
  !s.isEmpty && s.all tokenSafeChar && !pyStrIsDigit s &&
    !(1 < s.length && s.head? = some '\'' && s.getLast? = some '\'')

/-- A well-formed freshly composed entry: a list whose head is a good song
key and whose remaining children are composable nodes. -/
def goodEntry : Node → Bool
  | .list (.str k :: rest) => goodKey k && goodNodes rest
  | _ => false

/-! Wellformedness of patch inputs for the patch idempotence claim. -/

/-- ASCII letter, digit or underscore: the shape of the DTA field names the
patcher is called with. -/
def alnumU (c : Char) : Bool :=
  ('a' ≤ c && c ≤ 'z') || ('A' ≤ c && c ≤ 'Z') || pyIsDigit c || c = '_'

/-- A patchable field name. -/
def fieldOk (f : List Char) : Bool :=
  !f.isEmpty && f.all alnumU

/-- A string value safe to patch: free of double quotes, backslashes and
parentheses. -/
def cleanVal (v : List Char) : Bool :=
  v.all fun c => c ≠ '"' && c ≠ '\\' && c ≠ '(' && c ≠ ')'

/-- A character that ends a bare token in the lexer: whitespace or a
parenthesis. -/
def isDelim (c : Char) : Bool :=
  pyIsSpace c || c = '(' || c = ')'

mutual

/-- The token stream produced by a well-formed node's rendering: an integer
or a string becomes one token, a list becomes its children's tokens wrapped
in the one-character paren tokens. -/
def nodeToks : Node → List (List Char)
  | .int i => [intDec i]
  | .str s => [s]
  | .list vs => ['('] :: nodeToksList vs ++ [[')']]

def nodeToksList : List Node → List (List Char)
  | [] => []
  | v :: vs => nodeToks v ++ nodeToksList vs

end

/-! # Theorems -/

theorem prioLe_refl (a : Nat × Nat) : prioLe a a := .inr ⟨rfl, le_refl _⟩

theorem prioLe_trans {a b c : Nat × Nat} (h1 : prioLe a b) (h2 : prioLe b c) :
    prioLe a c := by
  rcases h1 with h1 | ⟨e1, l1⟩ <;> rcases h2 with h2 | ⟨e2, l2⟩
  · exact .inl (h1.trans h2)
  · exact .inl (e2 ▸ h1)
  · exact .inl (e1 ▸ h2)
  · exact .inr ⟨e1.trans e2, l1.trans l2⟩

theorem prioLt_le {a b : Nat × Nat} (h : prioLt a b = true) : prioLe a b := by
  unfold prioLt at h
  simp only [Bool.or_eq_true, decide_eq_true_eq, Bool.and_eq_true] at h
  rcases h with h | ⟨h1, h2⟩
  · exact .inl h
  · exact .inr ⟨h1, le_of_lt h2⟩

theorem prioLt_false_le {a b : Nat × Nat} (h : prioLt a b = false) : prioLe b a := by
  unfold prioLt at h
  simp only [Bool.or_eq_false_iff, decide_eq_false_iff_not, Bool.and_eq_false_iff] at h
  unfold prioLe
  omega

/-- The `min(songs, key=_dedup_priority)` fold yields an element of minimal
priority. -/
theorem bestFold_le (h : TSong) (t : List TSong) :
    prioLe (dedupPriority (t.foldl
        (fun b x => if prioLt (dedupPriority x.2) (dedupPriority b.2) then x else b)
        h).2) (dedupPriority h.2) ∧
      ∀ x ∈ t, prioLe (dedupPriority (t.foldl
        (fun b x => if prioLt (dedupPriority x.2) (dedupPriority b.2) then x else b)
        h).2) (dedupPriority x.2) := by
  induction t generalizing h with
  | nil => exact ⟨prioLe_refl _, by simp⟩
  | cons x t ih =>
      simp only [List.foldl_cons]
      obtain ⟨ihle, ihall⟩ :=
        ih (if prioLt (dedupPriority x.2) (dedupPriority h.2) then x else h)
      by_cases hx : prioLt (dedupPriority x.2) (dedupPriority h.2) = true
      · rw [if_pos hx] at ihle ihall ⊢
        refine ⟨prioLe_trans ihle (prioLt_le hx), ?_⟩
        intro y hy
        rcases List.mem_cons.mp hy with rfl | hy
        · exact ihle
        · exact ihall _ hy
      · rw [if_neg hx] at ihle ihall ⊢
        refine ⟨ihle, ?_⟩
        intro y hy
        rcases List.mem_cons.mp hy with rfl | hy
        · exact prioLe_trans ihle (prioLt_false_le (Bool.of_not_eq_true hx))
        · exact ihall _ hy

theorem bestElem_le {g : List TSong} {b : TSong} (hb : bestElem g = some b) :
    ∀ s ∈ g, prioLe (dedupPriority b.2) (dedupPriority s.2) := by
  match g with
  | [] => simp [bestElem] at hb
  | h :: t =>
      simp only [bestElem, Option.some.injEq] at hb
      obtain ⟨hle, hall⟩ := bestFold_le h t
      rw [hb] at hle hall
      intro s hs
      rcases List.mem_cons.mp hs with rfl | hs
      · exact hle
      · exact hall _ hs

theorem mergeInto_pack (b s : Song) :
    (mergeInto b s).pack_type = b.pack_type ∧
      (mergeInto b s).pack_name = b.pack_name := ⟨rfl, rfl⟩

theorem foldl_mergeInto_prio (b : Song) (l : List Song) :
    dedupPriority (l.foldl mergeInto b) = dedupPriority b := by
  induction l generalizing b with
  | nil => rfl
  | cons s l ih =>
      simp only [List.foldl_cons]
      rw [ih]
      rfl

theorem startsDigits5_of (ds rest : List Char) (h5 : 5 ≤ ds.length)
    (hd : ds.all pyIsDigit = true) : startsDigits5 (ds ++ rest) = true := by
  match ds, h5 with
  | d1 :: d2 :: d3 :: d4 :: d5 :: tl, _ =>
      simp only [List.all_cons, Bool.and_eq_true] at hd
      simp [startsDigits5, hd.1, hd.2.1, hd.2.2.1, hd.2.2.2.1, hd.2.2.2.2.1]

theorem isContentId_iff (p : String) : isContentId p = true ↔ contentIdSpec p := by
  constructor
  · intro h
    unfold isContentId at h
    match hp : p.data with
    | [] => rw [hp] at h; exact absurd h (by simp)
    | c1 :: rest =>
        rw [hp] at h
        simp only [Bool.and_eq_true, Bool.or_eq_true] at h
        obtain ⟨h1, h2⟩ := h
        rcases h2 with h2 | h2
        · match rest, h2 with
          | d1 :: d2 :: d3 :: d4 :: d5 :: tl, h2 =>
              simp only [startsDigits5, Bool.and_eq_true] at h2
              obtain ⟨⟨⟨⟨q1, q2⟩, q3⟩, q4⟩, q5⟩ := h2
              exact ⟨[c1], [d1, d2, d3, d4, d5], tl, by simp [hp],
                Or.inl rfl, by simp [h1], by simp,
                by simp [q1, q2, q3, q4, q5]⟩
        · match rest, h2 with
          | c2 :: rest2, h2 =>
              simp only [Bool.and_eq_true] at h2
              obtain ⟨hc2, h2⟩ := h2
              match rest2, h2 with
              | d1 :: d2 :: d3 :: d4 :: d5 :: tl, h2 =>
                  simp only [startsDigits5, Bool.and_eq_true] at h2
                  obtain ⟨⟨⟨⟨q1, q2⟩, q3⟩, q4⟩, q5⟩ := h2
                  exact ⟨[c1, c2], [d1, d2, d3, d4, d5], tl, by simp [hp],
                    Or.inr rfl, by simp [h1, hc2], by simp,
                    by simp [q1, q2, q3, q4, q5]⟩
  · rintro ⟨us, ds, rest, hdecomp, hus, husu, hds, hdsd⟩
    unfold isContentId
    match us, hus with
    | [u1], _ =>
        rw [hdecomp]
        simp only [List.cons_append, List.nil_append] at *
        simp only [List.all_cons, Bool.and_eq_true] at husu
        simp [husu.1, startsDigits5_of ds rest hds hdsd]
    | [u1, u2], _ =>
        rw [hdecomp]
        simp only [List.cons_append, List.nil_append] at *
        simp only [List.all_cons, Bool.and_eq_true] at husu
        simp [husu.1, husu.2.1, startsDigits5_of ds rest hds hdsd]

/-- C1.  For every dedup group, the kept record minimizes the priority tuple
`(pack_type_rank, is_content_id_name)`: the group's best element has priority
less than or equal to every member's, and the inheritance of missing fields
does not change the kept record's priority.  The pack-type ranks are
`disc=1 < export=2 < dlc=3 < custom=4 < other=5` with 99 for unknown types,
and `is_content_id_name` is set exactly when the pack name starts with 1–2
uppercase letters followed by 5+ digits.  Concretely, of two records sharing
`song_id = 100`, one `disc` and one `custom`, the full dedup keeps the disc
record (in either input order), and on a pack-type tie the record whose pack
name is not a content ID is kept. -/
theorem claim_C1_dedup_priority :
    (∀ (g : List TSong) (b : TSong), bestElem g = some b →
      ∀ s ∈ g, prioLe (dedupPriority b.2) (dedupPriority s.2)) ∧
    (∀ (g : List TSong) (b : TSong) (m : Song), bestElem g = some b →
      mergedBest g = some m → dedupPriority m = dedupPriority b.2) ∧
    (∀ p, isContentId p = true ↔ contentIdSpec p) ∧
    packPriority "disc" = 1 ∧ packPriority "export" = 2 ∧
    packPriority "dlc" = 3 ∧ packPriority "custom" = 4 ∧
    packPriority "other" = 5 ∧
    (∀ t, t ≠ "disc" → t ≠ "export" → t ≠ "dlc" → t ≠ "custom" → t ≠ "other" →
      packPriority t = 99) ∧
    (dedup
        [⟨"a", some 100, "Help!", "Beatles", "", none, "", "", "", "BASE", "disc", "f"⟩,
         ⟨"b", some 100, "Help!", "Beatles", "", none, "", "", "", "Cst", "custom", "g"⟩]).1 =
      [⟨"a", some 100, "Help!", "Beatles", "", none, "", "", "", "BASE", "disc", "f"⟩] ∧
    (dedup
        [⟨"b", some 100, "Help!", "Beatles", "", none, "", "", "", "Cst", "custom", "g"⟩,
         ⟨"a", some 100, "Help!", "Beatles", "", none, "", "", "", "BASE", "disc", "f"⟩]).1 =
      [⟨"a", some 100, "Help!", "Beatles", "", none, "", "", "", "BASE", "disc", "f"⟩] ∧
    bestElem
        [(0, ⟨"t1", none, "S", "Ar", "", none, "", "", "", "AB123456", "dlc", "f"⟩),
         (1, ⟨"t2", none, "S", "Ar", "", none, "", "", "", "GreenDay", "dlc", "g"⟩)] =
      some (1, ⟨"t2", none, "S", "Ar", "", none, "", "", "", "GreenDay", "dlc", "g"⟩) := by
  refine ⟨fun g b hb => bestElem_le hb, ?_, isContentId_iff, rfl, rfl, rfl, rfl, rfl,
    ?_, by rfl, by rfl, by rfl⟩
  · intro g b m hb hm
    unfold mergedBest at hm
    rw [hb] at hm
    simp only [Option.map_some', Option.some.injEq] at hm
    rw [← hm]
    exact foldl_mergeInto_prio _ _
  · intro t h1 h2 h3 h4 h5
    unfold packPriority
    rw [if_neg h1, if_neg h2, if_neg h3, if_neg h4, if_neg h5]

/-- C1 witness: the group lemmas of `claim_C1_dedup_priority` at a concrete
two-element group sharing a pack-type tie. -/
theorem claim_C1_dedup_priority_witness :
    prioLe
      (dedupPriority
        (⟨"t2", none, "S", "Ar", "", none, "", "", "", "GreenDay", "dlc", "g"⟩ : Song))
      (dedupPriority
        (⟨"t1", none, "S", "Ar", "", none, "", "", "", "AB123456", "dlc", "f"⟩ : Song)) ∧
    isContentId "O799159THEBEATLESROCKBAND3" = true := by
  constructor
  · exact claim_C1_dedup_priority.1
      [(0, ⟨"t1", none, "S", "Ar", "", none, "", "", "", "AB123456", "dlc", "f"⟩),
       (1, ⟨"t2", none, "S", "Ar", "", none, "", "", "", "GreenDay", "dlc", "g"⟩)]
      (1, ⟨"t2", none, "S", "Ar", "", none, "", "", "", "GreenDay", "dlc", "g"⟩)
      (by decide)
      (0, ⟨"t1", none, "S", "Ar", "", none, "", "", "", "AB123456", "dlc", "f"⟩)
      (by decide)
  · exact (claim_C1_dedup_priority.2.2.1 "O799159THEBEATLESROCKBAND3").2
      ⟨['O'], "79915".data, "9THEBEATLESROCKBAND3".data, by decide, Or.inl rfl,
        by decide, by decide, by decide⟩

/-- C10.  The Locator does not require the searched key to be
delimiter-terminated: on a text whose only entry has key `chumpremix`, a
lookup for `chump` succeeds and returns that entry's span (the same span the
full key returns), so removal by the key `chump` excises the `chumpremix`
entry. -/
theorem claim_C10_key_prefix_match :
    findSongEntryBounds "\n('chumpremix (name \"x\"))\n".data "chump".data =
      some (0, 25) ∧
    findSongEntryBounds "\n('chumpremix (name \"x\"))\n".data "chumpremix".data =
      some (0, 25) ∧
    (removeSongsFromDta "\n('chumpremix (name \"x\"))\n".data
        ["chump".data]).1 = "\n".data ∧
    (removeSongsFromDta "\n('chumpremix (name \"x\"))\n".data
        ["chump".data]).2.1 = ["chump".data] := by
  exact ⟨rfl, rfl, rfl, rfl⟩

/-! Helper lemmas about the Locator's scanner, shared by C3 and C9. -/

theorem scanStep_inr {st : ScanSt} {c : Char} (h : scanStep st c = .inr ()) :
    c = ')' ∧ st.esc = false ∧ st.instr = false ∧ st.depth = 1 := by
  unfold scanStep at h
  by_cases h1 : st.esc = true
  · simp [h1] at h
  · rw [Bool.not_eq_true] at h1
    rw [if_neg (by simp [h1])] at h
    by_cases h2 : c = '\\'
    · simp [h2] at h
    · rw [if_neg h2] at h
      by_cases h3 : c = '"'
      · simp [h3] at h
      · rw [if_neg h3] at h
        by_cases h4 : (!st.instr && c = '(') = true
        · simp [h4] at h
        · rw [if_neg h4] at h
          by_cases h5 : (!st.instr && c = ')') = true
          · rw [if_pos h5] at h
            simp only [Bool.and_eq_true, Bool.not_eq_true', decide_eq_true_eq] at h5
            by_cases h6 : st.depth - 1 = 0
            · exact ⟨h5.2, h1, h5.1, by omega⟩
            · simp [h6] at h
          · simp [h5] at h

theorem scanClose_spec {cs : List Char} {st : ScanSt} {i j : Nat}
    (h : scanClose st cs i = some j) :
    i ≤ j ∧ j - i < cs.length ∧ cs[j - i]? = some ')' := by
  induction cs generalizing st i with
  | nil => simp [scanClose] at h
  | cons c rest ih =>
      unfold scanClose at h
      match hstep : scanStep st c with
      | .inl st' =>
          rw [hstep] at h
          obtain ⟨h1, h2, h3⟩ := ih h
          refine ⟨by omega, by simp; omega, ?_⟩
          have : j - i = (j - (i + 1)) + 1 := by omega
          rw [this]
          simpa using h3
      | .inr u =>
          rw [hstep] at h
          simp only [Option.some.injEq] at h
          subst h
          obtain ⟨hc, -⟩ := scanStep_inr hstep
          subst hc
          exact ⟨le_refl _, by simp, by simp⟩

theorem extendWs_le (cs : List Char) : extendWs cs ≤ cs.length := by
  induction cs with
  | nil => simp [extendWs]
  | cons c rest ih =>
      unfold extendWs
      split
      · simpa using ih
      · simp

theorem extendWs_spec (cs : List Char) :
    (∀ j, j < extendWs cs → cs[j]? = some ' ' ∨ cs[j]? = some '\t') ∧
      (extendWs cs = cs.length ∨
        ¬(cs[extendWs cs]? = some ' ' ∨ cs[extendWs cs]? = some '\t')) := by
  induction cs with
  | nil => simp [extendWs]
  | cons c rest ih =>
      unfold extendWs
      by_cases hc : (c = ' ' || c = '\t') = true
      · rw [if_pos hc]
        simp only [Bool.or_eq_true, decide_eq_true_eq] at hc
        constructor
        · intro j hj
          match j with
          | 0 =>
              rcases hc with rfl | rfl
              · exact Or.inl (by simp)
              · exact Or.inr (by simp)
          | j + 1 =>
              have := ih.1 j (by omega)
              simpa using this
        · rcases ih.2 with h | h
          · exact Or.inl (by simp [h])
          · exact Or.inr (by simpa using h)
      · rw [if_neg hc]
        simp only [Bool.or_eq_true, decide_eq_true_eq, not_or] at hc
        refine ⟨by omega, Or.inr ?_⟩
        simp only [List.getElem?_cons_zero, Option.some.injEq]
        tauto

theorem findAnchorAux_spec {key cs : List Char} {i j : Nat}
    (h : findAnchorAux key cs i = some j) :
    ∃ k, j = i + k ∧ anchorHere key (cs.drop k) = true := by
  induction cs generalizing i with
  | nil =>
      unfold findAnchorAux at h
      by_cases ha : anchorHere key [] = true
      · rw [if_pos ha] at h
        exact ⟨0, by simpa using h.symm, by simpa using ha⟩
      · simp [ha] at h
  | cons c rest ih =>
      unfold findAnchorAux at h
      by_cases ha : anchorHere key (c :: rest) = true
      · rw [if_pos ha] at h
        exact ⟨0, by simpa using h.symm, by simpa using ha⟩
      · rw [if_neg ha] at h
        obtain ⟨k, hk, hanch⟩ := ih h
        exact ⟨k + 1, by omega, by simpa using hanch⟩

theorem anchorHere_shape {key s : List Char} (h : anchorHere key s = true) :
    s[0]? = some '\n' ∧ s[1]? = some '(' := by
  match s with
  | [] => simp [anchorHere] at h
  | [c] => simp [anchorHere] at h
  | c1 :: c2 :: rest =>
      simp only [anchorHere, Bool.and_eq_true, decide_eq_true_eq] at h
      obtain ⟨⟨rfl, rfl⟩, -⟩ := h
      exact ⟨by simp, by simp⟩

/-- C3.  The paren-depth counter is untouched by `(` or `)` while the
in-string flag is set (so quoted parentheses such as in `"Rock (Remix)"` do
not perturb the computed span, as the concrete conjunct shows), and the
Locator returns `none` both when no anchor match exists and when depth never
returns to zero before end of input. -/
theorem claim_C3_string_parens :
    (∀ (st : ScanSt) (c : Char), st.instr = true → st.esc = false →
      c = '(' ∨ c = ')' → scanStep st c = .inl st) ∧
    findSongEntryBounds
        "x\n('song1'\n   (name \"Rock (Remix)\")\n   (year 1987))  \n('other (a b))\n".data
        "song1".data = some (1, 53) ∧
    (∀ text key, findAnchor key text = none → findSongEntryBounds text key = none) ∧
    (∀ text key s, findAnchor key text = some s →
      scanClose ⟨0, false, false⟩ (text.drop (s + 1)) (s + 1) = none →
      findSongEntryBounds text key = none) := by
  refine ⟨?_, rfl, ?_, ?_⟩
  · intro st c hinstr hesc hc
    have h1 : st.esc = true → False := by simp [hesc]
    rcases hc with rfl | rfl <;>
      · unfold scanStep
        rw [if_neg (by simpa using hesc), if_neg (by decide), if_neg (by decide)]
        simp [hinstr]
  · intro text key h
    unfold findSongEntryBounds
    rw [h]
  · intro text key s h1 h2
    unfold findSongEntryBounds
    rw [h1]
    simp [h2]

/-- C3 witness: the scanner-step conjunct at a concrete in-string state and
the `none` conjuncts at concrete texts. -/
theorem claim_C3_string_parens_witness :
    scanStep ⟨2, true, false⟩ '(' = .inl ⟨2, true, false⟩ ∧
    scanStep ⟨2, true, false⟩ ')' = .inl ⟨2, true, false⟩ ∧
    findSongEntryBounds "xy".data "k".data = none ∧
    findSongEntryBounds "\n('a (b".data "a".data = none := by
  refine ⟨claim_C3_string_parens.1 _ _ rfl rfl (Or.inl rfl),
    claim_C3_string_parens.1 _ _ rfl rfl (Or.inr rfl),
    claim_C3_string_parens.2.2.1 _ _ (by rfl),
    claim_C3_string_parens.2.2.2 _ _ 0 (by rfl) (by rfl)⟩

/-- C9, counterexample to the claim as stated: the returned span starts at
the newline *before* the entry's opening paren (`match.start()` of the
`\n\(...` pattern), so the located substring begins with `'\n'`, not with
`'('`. -/
theorem claim_C9_counterexample :
    findSongEntryBounds "\nx\n('akey (name \"x\"))\n".data "akey".data =
      some (2, 21) ∧
    ¬(("\nx\n('akey (name \"x\"))\n".data.drop 2).head? = some '(') := by
  exact ⟨rfl, by decide⟩

/-- C9, amended.  When the Locator succeeds with span `(s, e)`, position `s`
holds the newline immediately before the entry's opening `(` at `s + 1`; the
span ends just past the `)` at which the scanner's depth returned to zero,
extended past trailing `' '`/`'\t'` characters but not past a newline (the
character at `e`, if any, is not horizontal whitespace). -/
theorem claim_C9_entry_span (text key : List Char) (s e : Nat)
    (h : findSongEntryBounds text key = some (s, e)) :
    text[s]? = some '\n' ∧ text[s + 1]? = some '(' ∧
    ∃ i, s + 1 ≤ i ∧ i < text.length ∧ text[i]? = some ')' ∧
      scanClose ⟨0, false, false⟩ (text.drop (s + 1)) (s + 1) = some i ∧
      e = i + 1 + extendWs (text.drop (i + 1)) ∧ e ≤ text.length ∧
      (∀ j, i < j → j < e → text[j]? = some ' ' ∨ text[j]? = some '\t') ∧
      (e = text.length ∨ ¬(text[e]? = some ' ' ∨ text[e]? = some '\t')) := by
  unfold findSongEntryBounds at h
  match ha : findAnchor key text with
  | none => rw [ha] at h; exact absurd h (by simp)
  | some s' =>
      rw [ha] at h
      dsimp only at h
      match hc : scanClose ⟨0, false, false⟩ (text.drop (s' + 1)) (s' + 1) with
      | none => rw [hc] at h; exact absurd h (by simp)
      | some i =>
          rw [hc] at h
          dsimp only at h
          simp only [Option.some.injEq, Prod.mk.injEq] at h
          obtain ⟨h1, h2⟩ := h
          subst h1
          subst h2
          obtain ⟨k, hk, hanch⟩ := findAnchorAux_spec ha
          have hk0 : k = s' := by omega
          rw [hk0] at hanch
          obtain ⟨hn, hp⟩ := anchorHere_shape hanch
          rw [List.getElem?_drop] at hn hp
          obtain ⟨hle, hlt, hget⟩ := scanClose_spec hc
          rw [List.getElem?_drop] at hget
          have hilen : i < text.length := by
            have := text.length_drop (s' + 1)
            omega
          have hiplus : (s' + 1) + (i - (s' + 1)) = i := by omega
          rw [hiplus] at hget
          have hwle := extendWs_le (text.drop (i + 1))
          rw [List.length_drop] at hwle
          obtain ⟨hws1, hws2⟩ := extendWs_spec (text.drop (i + 1))
          refine ⟨by simpa using hn, by simpa using hp, i, hle, hilen, hget, hc,
            rfl, by omega, ?_, ?_⟩
          · intro j hij hje
            have hj' : j - (i + 1) < extendWs (text.drop (i + 1)) := by omega
            have := hws1 _ hj'
            rw [List.getElem?_drop] at this
            have : text[(i + 1) + (j - (i + 1))]? = some ' ' ∨
                text[(i + 1) + (j - (i + 1))]? = some '\t' := this
            have hj'' : (i + 1) + (j - (i + 1)) = j := by omega
            rwa [hj''] at this
          · rcases hws2 with h2 | h2
            · rw [List.length_drop] at h2
              exact Or.inl (by omega)
            · rw [List.getElem?_drop] at h2
              exact Or.inr h2

/-! Helper lemmas for C8: the lexer inside an unterminated string, and the
parser on paren-free or truncated token streams. -/

theorem tokCore_instr (s : List Char) (acc : List Char)
    (h : ∀ c ∈ s, c ≠ '"' ∧ c ≠ '\\') :
    tokCore (.instr acc) s = [acc ++ s] := by
  induction s generalizing acc with
  | nil => simp [tokCore, tokFlush]
  | cons c cs ih =>
      have hc := h c (by simp)
      have hrest : ∀ c ∈ cs, c ≠ '"' ∧ c ≠ '\\' := fun x hx => h x (by simp [hx])
      unfold tokCore tokStep
      dsimp only
      rw [if_neg hc.2, if_neg hc.1]
      simpa [List.append_assoc] using ih (acc ++ [c]) hrest

theorem parseMany_noparen (ts : List (List Char))
    (h : ∀ t ∈ ts, t ≠ ['('] ∧ t ≠ [')']) :
    ∀ fuel, ts.length ≤ fuel → parseMany fuel ts = (ts.map atomOf, []) := by
  induction ts with
  | nil =>
      intro fuel _
      match fuel with
      | 0 => rfl
      | _ + 1 => rfl
  | cons t rest ih =>
      intro fuel hfuel
      cases fuel with
      | zero => exact absurd hfuel (by simp)
      | succ f =>
          have ht := h t (by simp)
          unfold parseMany
          rw [if_neg ht.2, if_neg ht.1]
          rw [ih (fun x hx => h x (by simp [hx])) f
            (by simp only [List.length_cons] at hfuel; omega)]
          rfl

theorem parseTokensF_nil (fuel : Nat) : parseTokensF fuel [] = [] := by
  match fuel with
  | 0 => rfl
  | _ + 1 => rfl

theorem parseTokensF_all_list (fuel : Nat) (ts : List (List Char)) :
    ∀ n ∈ parseTokensF fuel ts, ∃ l, n = .list l := by
  induction fuel generalizing ts with
  | zero => simp [parseTokensF]
  | succ f ih =>
      match ts with
      | [] => simp [parseTokensF]
      | t :: rest =>
          unfold parseTokensF
          by_cases ht : t = ['(']
          · rw [if_pos ht]
            intro n hn
            rcases List.mem_cons.mp hn with rfl | hn
            · exact ⟨_, rfl⟩
            · exact ih _ _ hn
          · rw [if_neg ht]
            exact ih _

/-- C8.  The lexer and parser are total functions that tolerate malformed
input: an unterminated double quote consumes to end of input as one token; a
`(` never matched by `)` still yields its (partial) list; top-level tokens
other than `(` — stray atoms and unmatched `)` — are skipped; and every
top-level result is a List node. -/
theorem claim_C8_total_parse :
    (∀ s : List Char, (∀ c ∈ s, c ≠ '"' ∧ c ≠ '\\') →
      tokenize ('"' :: s) = [s]) ∧
    (∀ ts : List (List Char), (∀ t ∈ ts, t ≠ ['('] ∧ t ≠ [')']) →
      parseTokens (['('] :: ts) = [.list (ts.map atomOf)]) ∧
    (∀ (t : List Char) ts, t ≠ ['('] → parseTokens (t :: ts) = parseTokens ts) ∧
    (∀ ts n, n ∈ parseTokens ts → ∃ l, n = .list l) := by
  refine ⟨?_, ?_, ?_, ?_⟩
  · intro s h
    unfold tokenize tokCore tokStep
    rw [if_neg (by decide), if_neg (by decide), if_pos (by decide)]
    simpa using tokCore_instr s [] h
  · intro ts h
    unfold parseTokens
    show parseTokensF (ts.length + 1 + 1) (['('] :: ts) = _
    unfold parseTokensF
    rw [if_pos rfl, parseMany_noparen ts h ts.length (le_refl _)]
    simp [parseTokensF_nil]
  · intro t ts ht
    show parseTokensF (ts.length + 1 + 1) (t :: ts) = parseTokens ts
    unfold parseTokensF
    rw [if_neg ht]
    rfl
  · intro ts n hn
    exact parseTokensF_all_list _ _ n hn

/-- C8 witness: the tolerance conjuncts at concrete malformed inputs. -/
theorem claim_C8_total_parse_witness :
    tokenize ('"' :: "abc".data) = ["abc".data] ∧
    parseTokens [['('], "a".data, "12".data] =
      [.list (["a".data, "12".data].map atomOf)] ∧
    parseTokens [[')'], ['('], "a".data] = parseTokens [['('], "a".data] := by
  refine ⟨claim_C8_total_parse.1 "abc".data (by decide), ?_, ?_⟩
  · exact claim_C8_total_parse.2.1 ["a".data, "12".data] (by decide)
  · exact claim_C8_total_parse.2.2.1 [')'] [['('], "a".data] (by decide)

/-- Generic shape of the inheritance fold of `_best_of` on one field: the
kept record keeps its own truthy value; a falsy value becomes the first
truthy value among the other members, in order. -/
theorem foldl_merge_field {α : Type} (get : Song → α) (tr : α → Bool)
    (hstep : ∀ b s, get (mergeInto b s) =
      if !tr (get b) && tr (get s) then get s else get b)
    (b : Song) (l : List Song) :
    get (l.foldl mergeInto b) =
      if tr (get b) then get b
      else ((l.find? fun s => tr (get s)).map get).getD (get b) := by
  induction l generalizing b with
  | nil => simp
  | cons s l ih =>
      rw [List.foldl_cons]
      by_cases hb : tr (get b) = true
      · have hmb : get (mergeInto b s) = get b := by rw [hstep]; simp [hb]
        rw [ih, hmb, if_pos hb, if_pos hb]
      · have hb' : tr (get b) = false := Bool.of_not_eq_true hb
        by_cases hs : tr (get s) = true
        · have hmb : get (mergeInto b s) = get s := by rw [hstep]; simp [hb', hs]
          rw [ih, hmb, if_pos hs, if_neg hb]
          simp [List.find?_cons, hs]
        · have hs' : tr (get s) = false := Bool.of_not_eq_true hs
          have hmb : get (mergeInto b s) = get b := by rw [hstep]; simp [hs']
          rw [ih, hmb, if_neg hb, if_neg hb]
          simp [List.find?_cons, hs']

/-- C4.  For every dedup group, writing `others` for the group members other
than the best one (in order): for each of the five inheritable fields, if the
best record's value is truthy it is unchanged in the kept record, and if it
is falsy the kept record's value is the first truthy value among `others`
(or stays falsy when there is none).  In particular a kept record lacking
`year` inherits `year = 1965` from a dropped duplicate, as the witness
instantiates. -/
theorem claim_C4_field_inheritance (g : List TSong) (b : TSong) (m : Song)
    (hb : bestElem g = some b) (hm : mergedBest g = some m) :
    let others := (g.filter fun x => x.1 ≠ b.1).map (·.2)
    ((truthyY b.2.year = true → m.year = b.2.year) ∧
     (truthyY b.2.year = false →
       m.year = ((others.find? fun s => truthyY s.year).map Song.year).getD b.2.year)) ∧
    ((truthyS b.2.album = true → m.album = b.2.album) ∧
     (truthyS b.2.album = false →
       m.album = ((others.find? fun s => truthyS s.album).map Song.album).getD b.2.album)) ∧
    ((truthyS b.2.genre = true → m.genre = b.2.genre) ∧
     (truthyS b.2.genre = false →
       m.genre = ((others.find? fun s => truthyS s.genre).map Song.genre).getD b.2.genre)) ∧
    ((truthyS b.2.sub_genre = true → m.sub_genre = b.2.sub_genre) ∧
     (truthyS b.2.sub_genre = false →
       m.sub_genre =
         ((others.find? fun s => truthyS s.sub_genre).map Song.sub_genre).getD
           b.2.sub_genre)) ∧
    ((truthyS b.2.decade = true → m.decade = b.2.decade) ∧
     (truthyS b.2.decade = false →
       m.decade =
         ((others.find? fun s => truthyS s.decade).map Song.decade).getD b.2.decade)) := by
  intro others
  have hmval : m = others.foldl mergeInto b.2 := by
    unfold mergedBest at hm
    rw [hb] at hm
    simp only [Option.map_some', Option.some.injEq] at hm
    exact hm.symm
  subst hmval
  refine ⟨⟨?_, ?_⟩, ⟨?_, ?_⟩, ⟨?_, ?_⟩, ⟨?_, ?_⟩, ⟨?_, ?_⟩⟩ <;> intro h
  · rw [foldl_merge_field Song.year truthyY (fun b s => rfl), if_pos h]
  · rw [foldl_merge_field Song.year truthyY (fun b s => rfl), if_neg (by simp [h])]
  · rw [foldl_merge_field Song.album truthyS (fun b s => rfl), if_pos h]
  · rw [foldl_merge_field Song.album truthyS (fun b s => rfl), if_neg (by simp [h])]
  · rw [foldl_merge_field Song.genre truthyS (fun b s => rfl), if_pos h]
  · rw [foldl_merge_field Song.genre truthyS (fun b s => rfl), if_neg (by simp [h])]
  · rw [foldl_merge_field Song.sub_genre truthyS (fun b s => rfl), if_pos h]
  · rw [foldl_merge_field Song.sub_genre truthyS (fun b s => rfl), if_neg (by simp [h])]
  · rw [foldl_merge_field Song.decade truthyS (fun b s => rfl), if_pos h]
  · rw [foldl_merge_field Song.decade truthyS (fun b s => rfl), if_neg (by simp [h])]

/-- C4 witness: the year-inheritance clause of `claim_C4_field_inheritance`
on the spec's example group (kept disc record without `year`, dropped custom
duplicate with `year = 1965`), together with the evaluated outcome. -/
theorem claim_C4_field_inheritance_witness :
    (⟨"a", some 100, "Help!", "Beatles", "", some 1965, "", "", "", "BASE", "disc",
        "f"⟩ : Song).year =
      ((([⟨"b", some 100, "Help!", "Beatles", "", some 1965, "", "", "", "Cst",
          "custom", "g"⟩] : List Song).find? fun s => truthyY s.year).map
        Song.year).getD none ∧
    (⟨"a", some 100, "Help!", "Beatles", "", some 1965, "", "", "", "BASE", "disc",
        "f"⟩ : Song).year = some 1965 := by
  constructor
  · exact ((claim_C4_field_inheritance
      [(0, ⟨"a", some 100, "Help!", "Beatles", "", none, "", "", "", "BASE", "disc", "f"⟩),
       (1, ⟨"b", some 100, "Help!", "Beatles", "", some 1965, "", "", "", "Cst", "custom", "g"⟩)]
      (0, ⟨"a", some 100, "Help!", "Beatles", "", none, "", "", "", "BASE", "disc", "f"⟩)
      ⟨"a", some 100, "Help!", "Beatles", "", some 1965, "", "", "", "BASE", "disc", "f"⟩
      (by rfl) (by rfl)).1).2 (by rfl)
  · rfl

/-! Helper lemmas for C2: excision, the stable descending sort, and the
splice fold. -/

theorem bool_eq_of_iff {a b : Bool} (h : a = true ↔ b = true) : a = b := by
  cases a <;> cases b <;> simp_all

theorem covered_cons (s e : Nat) (R : List (Nat × Nat)) (i : Nat) :
    covered ((s, e) :: R) i = ((s ≤ i && i < e) || covered R i) := by
  simp [covered]

theorem covered_perm {L1 L2 : List (Nat × Nat)} (h : L1.Perm L2) (i : Nat) :
    covered L1 i = covered L2 i := by
  apply bool_eq_of_iff
  unfold covered
  simp only [List.any_eq_true]
  constructor
  · rintro ⟨p, hp, hcond⟩; exact ⟨p, h.mem_iff.mp hp, hcond⟩
  · rintro ⟨p, hp, hcond⟩; exact ⟨p, h.mem_iff.mpr hp, hcond⟩

theorem exciseGo_congr {L1 L2 : List (Nat × Nat)}
    (h : ∀ j, covered L1 j = covered L2 j) (i : Nat) (cs : List Char) :
    exciseGo L1 i cs = exciseGo L2 i cs := by
  induction cs generalizing i with
  | nil => rfl
  | cons c cs ih => unfold exciseGo; rw [h i, ih]

theorem exciseGo_nil_spans (i : Nat) (cs : List Char) :
    exciseGo [] i cs = cs := by
  induction cs generalizing i with
  | nil => rfl
  | cons c cs ih => unfold exciseGo; simp [covered, ih]

theorem exciseGo_cons (spans : List (Nat × Nat)) (i : Nat) (c : Char)
    (cs : List Char) :
    exciseGo spans i (c :: cs) =
      if covered spans i then exciseGo spans (i + 1) cs
      else c :: exciseGo spans (i + 1) cs := rfl

theorem exciseGo_append (spans : List (Nat × Nat)) (i : Nat) (A B : List Char) :
    exciseGo spans i (A ++ B) =
      exciseGo spans i A ++ exciseGo spans (i + A.length) B := by
  induction A generalizing i with
  | nil => simp [exciseGo]
  | cons c A ih =>
      simp only [List.cons_append, exciseGo_cons, ih, List.length_cons]
      have harith : i + (A.length + 1) = i + 1 + A.length := by omega
      rw [harith]
      split <;> simp

theorem exciseGo_of_not_covered (spans : List (Nat × Nat)) (i : Nat)
    (cs : List Char)
    (h : ∀ j, i ≤ j → j < i + cs.length → covered spans j = false) :
    exciseGo spans i cs = cs := by
  induction cs generalizing i with
  | nil => rfl
  | cons c cs ih =>
      unfold exciseGo
      rw [h i (le_refl _) (by simp), if_neg (by simp)]
      rw [ih (i + 1) fun j h1 h2 => h j (by omega) (by simp at h2 ⊢; omega)]

theorem exciseGo_of_covered (spans : List (Nat × Nat)) (i : Nat)
    (cs : List Char)
    (h : ∀ j, i ≤ j → j < i + cs.length → covered spans j = true) :
    exciseGo spans i cs = [] := by
  induction cs generalizing i with
  | nil => rfl
  | cons c cs ih =>
      unfold exciseGo
      rw [h i (le_refl _) (by simp), if_pos rfl]
      exact ih (i + 1) fun j h1 h2 => h j (by omega) (by simp at h2 ⊢; omega)

theorem exciseGo_cons_irrel (s e : Nat) (spans : List (Nat × Nat)) (i : Nat)
    (cs : List Char)
    (h : ∀ j, i ≤ j → j < i + cs.length → ¬(s ≤ j ∧ j < e)) :
    exciseGo ((s, e) :: spans) i cs = exciseGo spans i cs := by
  induction cs generalizing i with
  | nil => rfl
  | cons c cs ih =>
      unfold exciseGo
      have hcond : covered ((s, e) :: spans) i = covered spans i := by
        rw [covered_cons]
        have := h i (le_refl _) (by simp)
        have hb : (decide (s ≤ i) && decide (i < e)) = false := by
          simp only [Bool.and_eq_false_iff, decide_eq_false_iff_not]
          tauto
        rw [hb, Bool.false_or]
      rw [hcond, ih (i + 1) fun j h1 h2 => h j (by omega) (by simp at h2 ⊢; omega)]

/-- Removing one span and then excising spans that lie entirely before it is
the same as excising all of them from the original text. -/
theorem excise_splice (text : List Char) (R : List (Nat × Nat)) (s e : Nat)
    (hse : s < e) (hel : e ≤ text.length) (hR : ∀ q ∈ R, q.2 ≤ s) :
    excise R (splice text s e) = excise ((s, e) :: R) text := by
  unfold excise splice
  have hsl : s ≤ text.length := by omega
  have htake : (text.take s).length = s := by
    rw [List.length_take]; omega
  have hRnot : ∀ j, s ≤ j → covered R j = false := by
    intro j hj
    unfold covered
    rw [List.any_eq_false]
    intro q hq
    have := hR q hq
    simp only [Bool.and_eq_true, decide_eq_true_eq, not_and]
    omega
  rw [exciseGo_append, htake]
  simp only [Nat.zero_add]
  have hdropLHS : exciseGo R s (text.drop e) = text.drop e :=
    exciseGo_of_not_covered _ _ _ fun j h1 _ => hRnot j h1
  rw [hdropLHS]
  conv_rhs => rw [← List.take_append_drop s text]
  rw [exciseGo_append, htake]
  simp only [Nat.zero_add]
  conv_rhs => rw [← List.take_append_drop (e - s) (text.drop s)]
  rw [exciseGo_append]
  have htake2 : ((text.drop s).take (e - s)).length = e - s := by
    rw [List.length_take, List.length_drop]; omega
  have hdd : (text.drop s).drop (e - s) = text.drop e := by
    rw [List.drop_drop]
    congr 1
    omega
  rw [htake2, hdd]
  have p1 : exciseGo ((s, e) :: R) 0 (text.take s) = exciseGo R 0 (text.take s) := by
    apply exciseGo_cons_irrel
    intro j h1 h2
    rw [htake] at h2
    omega
  have p2 : exciseGo ((s, e) :: R) s ((text.drop s).take (e - s)) = [] := by
    apply exciseGo_of_covered
    intro j h1 h2
    rw [htake2] at h2
    rw [covered_cons]
    have : (decide (s ≤ j) && decide (j < e)) = true := by
      simp only [Bool.and_eq_true, decide_eq_true_eq]
      omega
    rw [this, Bool.true_or]
  have p3 : exciseGo ((s, e) :: R) (s + (e - s)) (text.drop e) = text.drop e := by
    have hse' : s + (e - s) = e := by omega
    rw [hse']
    rw [exciseGo_cons_irrel _ _ _ _ _ fun j h1 h2 => by omega]
    exact exciseGo_of_not_covered _ _ _ fun j h1 _ => hRnot j (by omega)
  rw [p1, p2, p3]
  simp

theorem insertDesc_mem {x y : (Nat × Nat) × List Char}
    {l : List ((Nat × Nat) × List Char)} (h : y ∈ insertDesc x l) :
    y = x ∨ y ∈ l := by
  induction l with
  | nil => simpa [insertDesc] using h
  | cons z zs ih =>
      unfold insertDesc at h
      split at h
      · rcases List.mem_cons.mp h with rfl | h
        · exact Or.inl rfl
        · exact Or.inr h
      · rcases List.mem_cons.mp h with rfl | h
        · exact Or.inr (by simp)
        · rcases ih h with rfl | h
          · exact Or.inl rfl
          · exact Or.inr (by simp [h])

theorem insertDesc_perm (x : (Nat × Nat) × List Char)
    (l : List ((Nat × Nat) × List Char)) : (insertDesc x l).Perm (x :: l) := by
  induction l with
  | nil => simp [insertDesc]
  | cons z zs ih =>
      unfold insertDesc
      split
      · exact List.Perm.refl _
      · exact (ih.cons z).trans (List.Perm.swap x z zs)

theorem sortDesc_perm (l : List ((Nat × Nat) × List Char)) :
    (sortDesc l).Perm l := by
  induction l with
  | nil => simp [sortDesc]
  | cons x xs ih =>
      unfold sortDesc
      exact (insertDesc_perm x (sortDesc xs)).trans (ih.cons x)

theorem insertDesc_sorted {x : (Nat × Nat) × List Char}
    {l : List ((Nat × Nat) × List Char)}
    (h : l.Pairwise fun a b => b.1.1 ≤ a.1.1) :
    (insertDesc x l).Pairwise fun a b => b.1.1 ≤ a.1.1 := by
  induction l with
  | nil => simp [insertDesc]
  | cons z zs ih =>
      obtain ⟨hz, hzs⟩ := List.pairwise_cons.mp h
      unfold insertDesc
      split
      · refine List.pairwise_cons.mpr ⟨?_, h⟩
        intro b hb
        rcases List.mem_cons.mp hb with rfl | hb
        · omega
        · have := hz b hb
          omega
      · refine List.pairwise_cons.mpr ⟨?_, ih hzs⟩
        intro b hb
        rcases insertDesc_mem hb with rfl | hb
        · omega
        · exact hz b hb

theorem sortDesc_sorted (l : List ((Nat × Nat) × List Char)) :
    (sortDesc l).Pairwise fun a b => b.1.1 ≤ a.1.1 := by
  induction l with
  | nil => simp [sortDesc]
  | cons x xs ih => exact insertDesc_sorted ih

/-- Validity of a located span: it is nonempty and lies inside the text. -/
theorem findBounds_valid {text key : List Char} {s e : Nat}
    (h : findSongEntryBounds text key = some (s, e)) :
    s + 2 ≤ e ∧ e ≤ text.length := by
  unfold findSongEntryBounds at h
  match ha : findAnchor key text with
  | none => rw [ha] at h; exact absurd h (by simp)
  | some s' =>
      rw [ha] at h
      dsimp only at h
      match hc : scanClose ⟨0, false, false⟩ (text.drop (s' + 1)) (s' + 1) with
      | none => rw [hc] at h; exact absurd h (by simp)
      | some i =>
          rw [hc] at h
          dsimp only at h
          simp only [Option.some.injEq, Prod.mk.injEq] at h
          obtain ⟨h1, h2⟩ := h
          subst h1
          subst h2
          obtain ⟨hle, hlt, -⟩ := scanClose_spec hc
          have hilen : i < text.length := by
            have := text.length_drop (s' + 1)
            omega
          have hwle := extendWs_le (text.drop (i + 1))
          rw [List.length_drop] at hwle
          omega

/-- Splicing out a descending-sorted list of pairwise disjoint valid spans,
rightmost first, excises exactly those spans. -/
theorem foldl_splice_excise (L : List ((Nat × Nat) × List Char))
    (text : List Char)
    (hsorted : L.Pairwise fun a b => b.1.1 ≤ a.1.1)
    (hdisj : L.Pairwise fun a b => spanDisjoint a.1 b.1)
    (hvalid : ∀ p ∈ L, p.1.1 < p.1.2 ∧ p.1.2 ≤ text.length) :
    L.foldl (fun t x => splice t x.1.1 x.1.2) text = excise (L.map (·.1)) text := by
  induction L generalizing text with
  | nil => rw [List.foldl_nil, List.map_nil]; exact (exciseGo_nil_spans 0 text).symm
  | cons p rest ih =>
      obtain ⟨hs1, hs2⟩ := List.pairwise_cons.mp hsorted
      obtain ⟨hd1, hd2⟩ := List.pairwise_cons.mp hdisj
      obtain ⟨hpv1, hpv2⟩ := hvalid p (by simp)
      have hrestle : ∀ q ∈ rest, q.1.2 ≤ p.1.1 := by
        intro q hq
        have h1 := hs1 q hq
        have h2 := hd1 q hq
        obtain ⟨hqv1, hqv2⟩ := hvalid q (by simp [hq])
        unfold spanDisjoint at h2
        omega
      rw [List.foldl_cons]
      have hsplen : (splice text p.1.1 p.1.2).length =
          p.1.1 + (text.length - p.1.2) := by
        unfold splice
        rw [List.length_append, List.length_take, List.length_drop]
        omega
      rw [ih (splice text p.1.1 p.1.2) hs2 hd2 ?hval]
      case hval =>
        intro q hq
        obtain ⟨hqv1, hqv2⟩ := hvalid q (by simp [hq])
        rw [hsplen]
        exact ⟨hqv1, by have := hrestle q hq; omega⟩
      rw [List.map_cons]
      exact excise_splice text (rest.map (·.1)) p.1.1 p.1.2 hpv1 hpv2
        (by intro q hq
            obtain ⟨r, hr, rfl⟩ := List.mem_map.mp hq
            exact hrestle r hr)

theorem spanDisjoint_symmetric :
    Symmetric fun a b : (Nat × Nat) × List Char => spanDisjoint a.1 b.1 := by
  intro a b h
  exact h.elim Or.inr Or.inl

theorem located_map_fst (text : List Char) (keys : List (List Char)) :
    ((keys.filterMap fun k =>
        (findSongEntryBounds text k).map fun b => (b, k)).map (·.1)) =
      keys.filterMap fun k => findSongEntryBounds text k := by
  induction keys with
  | nil => rfl
  | cons k ks ih =>
      simp only [List.filterMap_cons]
      match h : findSongEntryBounds text k with
      | none => simpa using ih
      | some b => simpa using ih

theorem located_mem {text : List Char} {keys : List (List Char)}
    {p : (Nat × Nat) × List Char}
    (hp : p ∈ keys.filterMap fun k =>
      (findSongEntryBounds text k).map fun b => (b, k)) :
    findSongEntryBounds text p.2 = some p.1 := by
  obtain ⟨k, hk, heq⟩ := List.mem_filterMap.mp hp
  match h : findSongEntryBounds text k with
  | none => rw [h] at heq; exact absurd heq (by simp)
  | some b =>
      rw [h] at heq
      simp only [Option.map_some', Option.some.injEq] at heq
      rw [← heq]
      exact h

/-- Under pairwise-disjoint located spans, the mutated text is the original
with exactly those spans excised. -/
theorem removeSongs_excise (text : List Char) (keys : List (List Char))
    (hdisj : (keys.filterMap fun k =>
      findSongEntryBounds text k).Pairwise spanDisjoint) :
    (removeSongsFromDta text keys).1 =
      excise (keys.filterMap fun k => findSongEntryBounds text k) text := by
  unfold removeSongsFromDta
  dsimp only
  set located := keys.filterMap fun k =>
    (findSongEntryBounds text k).map fun b => (b, k) with hlocated
  have hfst := located_map_fst text keys
  rw [← hfst] at hdisj ⊢
  have hdisj' : located.Pairwise fun a b => spanDisjoint a.1 b.1 :=
    (List.pairwise_map).mp hdisj
  have hperm := sortDesc_perm located
  have hsorted := sortDesc_sorted located
  have hdisjs : (sortDesc located).Pairwise fun a b => spanDisjoint a.1 b.1 :=
    (List.Perm.pairwise_iff (fun {_ _} h => spanDisjoint_symmetric h) hperm).mpr hdisj'
  have hvalid : ∀ p ∈ sortDesc located, p.1.1 < p.1.2 ∧ p.1.2 ≤ text.length := by
    intro p hp
    have hmem : p ∈ located := hperm.mem_iff.mp hp
    obtain ⟨⟨ps, pe⟩, pk⟩ := p
    have hv := findBounds_valid (located_mem hmem)
    dsimp only at hv ⊢
    omega
  rw [foldl_splice_excise (sortDesc located) text hsorted hdisjs hvalid]
  exact exciseGo_congr (covered_perm (hperm.map (·.1))) 0 text

/-- C2, counterexample to the claim as stated: with the key list
`["a", "a"]` both occurrences locate the same span, and splicing it out
twice also deletes part of the following entry, so the mutated text is not
the original with exactly the located spans excised. -/
theorem claim_C2_counterexample :
    (removeSongsFromDta "\n('a 1)\n('b 2)".data ["a".data, "a".data]).1 ≠
      excise (["a".data, "a".data].filterMap fun k =>
        findSongEntryBounds "\n('a 1)\n('b 2)".data k) "\n('a 1)\n('b 2)".data := by
  decide

/-- C2, amended.  When the located spans are pairwise disjoint (in
particular no two keys select the same or overlapping entries),
`remove_songs_from_dta` produces the original text with exactly the located
spans excised and all other content byte-identical; the mutated text is the
same for every permutation of the key list; and the keys with no located
span are exactly the `not_found` report. -/
theorem claim_C2_remove_excises_spans (text : List Char)
    (keys : List (List Char))
    (hdisj : (keys.filterMap fun k =>
      findSongEntryBounds text k).Pairwise spanDisjoint) :
    (removeSongsFromDta text keys).1 =
      excise (keys.filterMap fun k => findSongEntryBounds text k) text ∧
    (∀ keys₂, keys₂.Perm keys →
      (removeSongsFromDta text keys₂).1 = (removeSongsFromDta text keys).1) ∧
    (removeSongsFromDta text keys).2.2 =
      keys.filter fun k => findSongEntryBounds text k = none := by
  refine ⟨removeSongs_excise text keys hdisj, ?_, rfl⟩
  intro keys₂ hperm
  have hpermf :
      (keys₂.filterMap fun k => findSongEntryBounds text k).Perm
        (keys.filterMap fun k => findSongEntryBounds text k) :=
    hperm.filterMap _
  have hdisj₂ : (keys₂.filterMap fun k =>
      findSongEntryBounds text k).Pairwise spanDisjoint :=
    (hpermf.pairwise_iff (by intro a b h; exact h.elim Or.inr Or.inl)).mpr hdisj
  rw [removeSongs_excise text keys₂ hdisj₂, removeSongs_excise text keys hdisj]
  exact exciseGo_congr (covered_perm hpermf) 0 text

/-- C2 witness: the amended theorem on a two-entry text with both keys
present (disjoint spans), evaluated. -/
theorem claim_C2_remove_excises_spans_witness :
    (removeSongsFromDta "\n('a 1)\n('b 2)".data ["b".data, "a".data]).1 =
      excise (["b".data, "a".data].filterMap fun k =>
        findSongEntryBounds "\n('a 1)\n('b 2)".data k) "\n('a 1)\n('b 2)".data ∧
    (∀ keys₂, keys₂.Perm ["b".data, "a".data] →
      (removeSongsFromDta "\n('a 1)\n('b 2)".data keys₂).1 =
        (removeSongsFromDta "\n('a 1)\n('b 2)".data ["b".data, "a".data]).1) ∧
    (removeSongsFromDta "\n('a 1)\n('b 2)".data ["b".data, "a".data]).2.2 =
      ["b".data, "a".data].filter fun k =>
        findSongEntryBounds "\n('a 1)\n('b 2)".data k = none := by
  exact claim_C2_remove_excises_spans "\n('a 1)\n('b 2)".data
    ["b".data, "a".data] (by decide)

/-! Helper lemmas for C5: counting, group membership and key preservation
through the merge, leading to the idempotence of the dedup engine. -/

theorem length_filter_filterMap {α β : Type} (F : α → Option β) (p : β → Bool)
    (l : List α) :
    ((l.filterMap F).filter p).length =
      l.countP fun a => ((F a).map p).getD false := by
  induction l with
  | nil => rfl
  | cons a l ih =>
      rw [List.filterMap_cons, List.countP_cons]
      match hF : F a with
      | none => simpa using ih
      | some out =>
          rw [List.filter_cons]
          by_cases hp : p out = true
          · simp [hp, ih]
          · have hp' : p out = false := Bool.of_not_eq_true hp
            simp [hp', ih]

theorem countP_tag_le_one (l : List TSong) (hnodup : (l.map (·.1)).Nodup)
    (t0 : Nat) : (l.countP fun ts => ts.1 = t0) ≤ 1 := by
  induction l with
  | nil => simp
  | cons x l ih =>
      rw [List.map_cons, List.nodup_cons] at hnodup
      rw [List.countP_cons]
      by_cases hx : x.1 = t0
      · have hrest : (l.countP fun ts => ts.1 = t0) = 0 := by
          rw [List.countP_eq_zero]
          intro ts hts
          simp only [decide_eq_true_eq]
          intro hts1
          exact hnodup.1 (hx ▸ hts1 ▸ List.mem_map_of_mem (·.1) hts)
        simp [hx, hrest]
      · simp [hx, ih hnodup.2]

theorem bestFold_mem (h : TSong) (t : List TSong) :
    (t.foldl (fun b x =>
        if prioLt (dedupPriority x.2) (dedupPriority b.2) then x else b) h) = h ∨
      (t.foldl (fun b x =>
        if prioLt (dedupPriority x.2) (dedupPriority b.2) then x else b) h) ∈ t := by
  induction t generalizing h with
  | nil => exact Or.inl rfl
  | cons x t ih =>
      rw [List.foldl_cons]
      rcases ih (if prioLt (dedupPriority x.2) (dedupPriority h.2) then x else h)
        with heq | hmem
      · rw [heq]
        split
        · exact Or.inr (by simp)
        · exact Or.inl rfl
      · exact Or.inr (by simp [hmem])

theorem bestElem_mem {g : List TSong} {b : TSong} (hb : bestElem g = some b) :
    b ∈ g := by
  match g with
  | [] => simp [bestElem] at hb
  | h :: t =>
      simp only [bestElem, Option.some.injEq] at hb
      rcases bestFold_mem h t with heq | hmem
      · rw [hb] at heq; rw [heq]; simp
      · rw [hb] at hmem; simp [hmem]

theorem foldl_mergeInto_song_id (b : Song) (l : List Song) :
    (l.foldl mergeInto b).song_id = b.song_id := by
  induction l generalizing b with
  | nil => rfl
  | cons s l ih => rw [List.foldl_cons, ih]; rfl

theorem foldl_mergeInto_song_key (b : Song) (l : List Song) :
    (l.foldl mergeInto b).song_key = b.song_key := by
  induction l generalizing b with
  | nil => rfl
  | cons s l ih => rw [List.foldl_cons, ih]; rfl

theorem foldl_mergeInto_artist (b : Song) (l : List Song) :
    (l.foldl mergeInto b).artist = b.artist := by
  induction l generalizing b with
  | nil => rfl
  | cons s l ih => rw [List.foldl_cons, ih]; rfl

theorem mergedBest_song_id {g : List TSong} {b : TSong} {m : Song}
    (hb : bestElem g = some b) (hm : mergedBest g = some m) :
    m.song_id = b.2.song_id := by
  unfold mergedBest at hm
  rw [hb] at hm
  simp only [Option.map_some', Option.some.injEq] at hm
  rw [← hm]
  exact foldl_mergeInto_song_id _ _

theorem mergedBest_song_key {g : List TSong} {b : TSong} {m : Song}
    (hb : bestElem g = some b) (hm : mergedBest g = some m) :
    m.song_key = b.2.song_key := by
  unfold mergedBest at hm
  rw [hb] at hm
  simp only [Option.map_some', Option.some.injEq] at hm
  rw [← hm]
  exact foldl_mergeInto_song_key _ _

theorem mergedBest_artist {g : List TSong} {b : TSong} {m : Song}
    (hb : bestElem g = some b) (hm : mergedBest g = some m) :
    m.artist = b.2.artist := by
  unfold mergedBest at hm
  rw [hb] at hm
  simp only [Option.map_some', Option.some.injEq] at hm
  rw [← hm]
  exact foldl_mergeInto_artist _ _

theorem mergedBest_isSome {g : List TSong} {b : TSong}
    (hb : bestElem g = some b) : ∃ m, mergedBest g = some m := by
  unfold mergedBest
  rw [hb]
  exact ⟨_, rfl⟩

theorem passKeep_fst {K : Type} [DecidableEq K] {key : Song → Option K}
    {l : List TSong} {ts out : TSong} (h : passKeep key l ts = some out) :
    out.1 = ts.1 := by
  unfold passKeep at h
  match hk : key ts.2 with
  | none => rw [hk] at h; simp only [Option.some.injEq] at h; rw [← h]
  | some k =>
      rw [hk] at h
      dsimp only at h
      split at h
      · simp only [Option.some.injEq] at h; rw [← h]
      · split at h
        · match hm : mergedBest (l.filter fun x => key x.2 = some k) with
          | none => rw [hm] at h; exact absurd h (by simp)
          | some m =>
              rw [hm] at h
              simp only [Option.map_some', Option.some.injEq] at h
              rw [← h]
        · exact absurd h (by simp)

theorem mergeInto_artist (b s : Song) : (mergeInto b s).artist = b.artist := rfl

theorem mergeInto_name (b s : Song) : (mergeInto b s).name = b.name := rfl

theorem mergeInto_song_key (b s : Song) :
    (mergeInto b s).song_key = b.song_key := rfl

/-- One inheritance step preserves the pass-3 key, provided the kept record's
normalized artist is not the literal sentinel `__no_meta__` and the merged-in
member has the same key. -/
theorem keyMeta_mergeInto (acc o : Song)
    (hart : normMeta acc.artist ≠ "__no_meta__")
    (ho : keyMeta o = keyMeta acc) :
    keyMeta (mergeInto acc o) = keyMeta acc := by
  by_cases hnb : (normMeta acc.artist = "" || normMeta acc.name = "") = true
  · unfold keyMeta
    rw [mergeInto_artist, mergeInto_name, mergeInto_song_key,
      if_pos hnb, if_pos hnb]
  · unfold keyMeta
    rw [mergeInto_artist, mergeInto_name, if_neg hnb, if_neg hnb]
    by_cases halb : (!truthyS acc.album && truthyS o.album) = true
    · have hmalb : (mergeInto acc o).album = o.album := by
        show (if !truthyS acc.album && truthyS o.album then o.album
          else acc.album) = o.album
        rw [if_pos halb]
      rw [hmalb]
      unfold keyMeta at ho
      rw [if_neg hnb] at ho
      by_cases hno : (normMeta o.artist = "" || normMeta o.name = "") = true
      · rw [if_pos hno] at ho
        simp only [Option.some.injEq, Prod.mk.injEq] at ho
        exact absurd ho.1.symm hart
      · rw [if_neg hno] at ho
        simp only [Option.some.injEq, Prod.mk.injEq] at ho
        rw [ho.2.2]
    · have hmalb : (mergeInto acc o).album = acc.album := by
        show (if !truthyS acc.album && truthyS o.album then o.album
          else acc.album) = acc.album
        rw [if_neg halb]
      rw [hmalb]

/-- Inheritance preserves the pass-3 key of the kept record across the whole
group, under the same sentinel-freedom hypothesis. -/
theorem keyMeta_foldl_merge (b : Song) (others : List Song)
    (hart : normMeta b.artist ≠ "__no_meta__")
    (hsame : ∀ o ∈ others, keyMeta o = keyMeta b) :
    keyMeta (others.foldl mergeInto b) = keyMeta b := by
  suffices hgen : ∀ acc : Song, acc.artist = b.artist →
      keyMeta acc = keyMeta b →
      keyMeta (others.foldl mergeInto acc) = keyMeta b from
    hgen b rfl rfl
  induction others with
  | nil => intro acc _ h4; exact h4
  | cons o os ih =>
      intro acc h1 h4
      have ho := hsame o (by simp)
      have hos : ∀ x ∈ os, keyMeta x = keyMeta b := fun x hx =>
        hsame x (by simp [hx])
      rw [List.foldl_cons]
      have hstep : keyMeta (mergeInto acc o) = keyMeta acc :=
        keyMeta_mergeInto acc o (h1 ▸ hart) (ho.trans h4.symm)
      exact ih hos (mergeInto acc o) ((mergeInto_artist acc o).trans h1)
        (hstep.trans h4)

theorem nodup_tag_inj {l : List TSong} (hnodup : (l.map (·.1)).Nodup)
    {a b : TSong} (ha : a ∈ l) (hb : b ∈ l) (heq : a.1 = b.1) : a = b := by
  induction l with
  | nil => simp at ha
  | cons x xs ih =>
      rw [List.map_cons, List.nodup_cons] at hnodup
      by_cases hax : a = x
      · by_cases hbx : b = x
        · rw [hax, hbx]
        · exfalso
          apply hnodup.1
          have hbxs : b ∈ xs := by
            rcases List.mem_cons.mp hb with h | h
            · exact absurd h hbx
            · exact h
          have hmem : b.1 ∈ xs.map (·.1) := List.mem_map_of_mem _ hbxs
          have h2 : x.1 = b.1 := by rw [← hax, heq]
          rw [← h2] at hmem
          exact hmem
      · by_cases hbx : b = x
        · exfalso
          apply hnodup.1
          have haxs : a ∈ xs := by
            rcases List.mem_cons.mp ha with h | h
            · exact absurd h hax
            · exact h
          have hmem : a.1 ∈ xs.map (·.1) := List.mem_map_of_mem _ haxs
          have h2 : x.1 = a.1 := by rw [← hbx, ← heq]
          rw [← h2] at hmem
          exact hmem
        · have haxs : a ∈ xs := by
            rcases List.mem_cons.mp ha with h | h
            · exact absurd h hax
            · exact h
          have hbxs : b ∈ xs := by
            rcases List.mem_cons.mp hb with h | h
            · exact absurd h hbx
            · exact h
          exact ih hnodup.2 haxs hbxs

/-- `filterMap` with a tag-preserving function yields a tag sublist. -/
theorem filterMap_fst_sublist {F : TSong → Option TSong}
    (hF : ∀ a out, F a = some out → out.1 = a.1) (l : List TSong) :
    ((l.filterMap F).map (·.1)).Sublist (l.map (·.1)) := by
  induction l with
  | nil => simp
  | cons x xs ih =>
      rw [List.filterMap_cons, List.map_cons]
      match h : F x with
      | none => exact ih.cons x.1
      | some out =>
          rw [List.map_cons, hF x out h]
          exact ih.cons₂ x.1

theorem passBy_fst_sublist {K : Type} [DecidableEq K] (key : Song → Option K)
    (l : List TSong) :
    (((passBy key l).1).map (·.1)).Sublist (l.map (·.1)) :=
  filterMap_fst_sublist (fun _ _ h => passKeep_fst h) l

theorem passBy_nodup {K : Type} [DecidableEq K] (key : Song → Option K)
    (l : List TSong) (hnodup : (l.map (·.1)).Nodup) :
    (((passBy key l).1).map (·.1)).Nodup :=
  (passBy_fst_sublist key l).nodup hnodup

/-- Every kept song's artist is the artist of some input song. -/
theorem passBy_artist {K : Type} [DecidableEq K] (key : Song → Option K)
    (l : List TSong) (P : String → Prop)
    (hP : ∀ ts ∈ l, P ts.2.artist) :
    ∀ out ∈ (passBy key l).1, P out.2.artist := by
  intro out hout
  obtain ⟨ts, hts, heq⟩ := List.mem_filterMap.mp hout
  unfold passKeep at heq
  match hk : key ts.2 with
  | none =>
      rw [hk] at heq
      simp only [Option.some.injEq] at heq
      exact heq ▸ hP ts hts
  | some k =>
      rw [hk] at heq
      dsimp only at heq
      split at heq
      · simp only [Option.some.injEq] at heq
        exact heq ▸ hP ts hts
      · split at heq
        · match hm : mergedBest (l.filter fun x => key x.2 = some k) with
          | none => rw [hm] at heq; exact absurd heq (by simp)
          | some m =>
              rw [hm] at heq
              simp only [Option.map_some', Option.some.injEq] at heq
              have hbe : ∃ b, bestElem (l.filter fun x => key x.2 = some k) =
                  some b := by
                unfold mergedBest at hm
                match hb : bestElem (l.filter fun x => key x.2 = some k) with
                | none => rw [hb] at hm; exact absurd hm (by simp)
                | some b => exact ⟨b, rfl⟩
              obtain ⟨b, hb⟩ := hbe
              have hart := mergedBest_artist hb hm
              have hbmem : b ∈ l :=
                (List.mem_filter.mp (bestElem_mem hb)).1
              rw [← heq]
              show P m.artist
              rw [hart]
              exact hP b hbmem
        · exact absurd heq (by simp)

/-- A pass over a list in which every group has at most one member keeps
every song unchanged and drops nothing. -/
theorem passBy_id {K : Type} [DecidableEq K] (key : Song → Option K)
    (l : List TSong)
    (hu : ∀ k : K, (l.filter fun ts => key ts.2 = some k).length ≤ 1) :
    passBy key l = (l, []) := by
  unfold passBy
  have hkeep : l.filterMap (passKeep key l) = l := by
    rw [List.filterMap_congr (g := some) ?hsome]
    · exact List.filterMap_some l
    case hsome =>
      intro ts hts
      unfold passKeep
      match hk : key ts.2 with
      | none => rfl
      | some k =>
          dsimp only
          rw [if_pos (hu k)]
  have hdrop : l.filterMap (passDrop key l) = [] := by
    rw [List.filterMap_eq_nil_iff]
    intro ts hts
    unfold passDrop
    match hk : key ts.2 with
    | none => rfl
    | some k =>
        dsimp only
        rw [if_pos (hu k)]
  rw [hkeep, hdrop]

/-- Case analysis of the fate of one kept song. -/
theorem passKeep_cases {K : Type} [DecidableEq K] {key : Song → Option K}
    {l : List TSong} {ts out : TSong}
    (h : passKeep key l ts = some out) :
    (out = ts ∧ key ts.2 = none) ∨
    (out = ts ∧ ∃ k, key ts.2 = some k ∧
      (l.filter fun x => key x.2 = some k).length ≤ 1) ∨
    (∃ (k : K) (b : TSong) (m : Song), key ts.2 = some k ∧
      2 ≤ (l.filter fun x => key x.2 = some k).length ∧
      bestElem (l.filter fun x => key x.2 = some k) = some b ∧
      mergedBest (l.filter fun x => key x.2 = some k) = some m ∧
      ts.1 = b.1 ∧ out = (ts.1, m)) := by
  unfold passKeep at h
  match hk : key ts.2 with
  | none =>
      rw [hk] at h
      simp only [Option.some.injEq] at h
      exact Or.inl ⟨h.symm, rfl⟩
  | some k =>
      rw [hk] at h
      dsimp only at h
      split at h
      · rename_i hsmall
        simp only [Option.some.injEq] at h
        exact Or.inr (Or.inl ⟨h.symm, k, rfl, hsmall⟩)
      · rename_i hsmall
        split at h
        · rename_i hbest
          match hm : mergedBest (l.filter fun x => key x.2 = some k) with
          | none => rw [hm] at h; exact absurd h (by simp)
          | some m =>
              rw [hm] at h
              simp only [Option.map_some', Option.some.injEq] at h
              match hb : bestElem (l.filter fun x => key x.2 = some k) with
              | none =>
                  rw [hb] at hbest
                  simp at hbest
              | some b =>
                  rw [hb] at hbest
                  simp only [Option.map_some', Option.some.injEq] at hbest
                  exact Or.inr (Or.inr ⟨k, b, m, rfl, by omega, hb, hm,
                    hbest, h.symm⟩)
        · exact absurd h (by simp)

/-- After a pass, every group of the pass's own key has at most one member,
provided the tags are distinct and the merge preserves the group key. -/
theorem passBy_uniq {K : Type} [DecidableEq K] (key : Song → Option K)
    (l : List TSong) (hnodup : (l.map (·.1)).Nodup)
    (hpres : ∀ (k : K) (m : Song),
      2 ≤ (l.filter fun x => key x.2 = some k).length →
      mergedBest (l.filter fun x => key x.2 = some k) = some m →
      key m = some k)
    (k : K) :
    (((passBy key l).1).filter fun ts => key ts.2 = some k).length ≤ 1 := by
  show ((l.filterMap (passKeep key l)).filter fun ts =>
    key ts.2 = some k).length ≤ 1
  rw [length_filter_filterMap]
  by_cases hg : (l.filter fun x => key x.2 = some k).length ≤ 1
  · calc (l.countP fun a =>
          ((passKeep key l a).map fun out => decide (key out.2 = some k)).getD
            false) ≤
        l.countP fun a => decide (key a.2 = some k) := by
          apply List.countP_mono_left
          intro ts hts hq
          match hout : passKeep key l ts with
          | none => rw [hout] at hq; simp at hq
          | some out =>
              rw [hout] at hq
              simp only [Option.map_some', Option.getD_some,
                decide_eq_true_eq] at hq
              simp only [decide_eq_true_eq]
              rcases passKeep_cases hout with ⟨rfl, hnone⟩ | ⟨rfl, -⟩ |
                ⟨k2, b, m, hk2, hsz, hb, hm, htag, hout2⟩
              · rw [hnone] at hq; exact absurd hq (by simp)
              · exact hq
              · have hkm := hpres k2 m hsz hm
                rw [hout2] at hq
                dsimp only at hq
                rw [hkm] at hq
                simp only [Option.some.injEq] at hq
                rw [hq] at hk2
                exact hk2
      _ = (l.filter fun x => key x.2 = some k).length := by
          rw [List.countP_eq_length_filter]
      _ ≤ 1 := hg
  · have hg2 : 2 ≤ (l.filter fun x => key x.2 = some k).length := by omega
    obtain ⟨b0, hb0⟩ : ∃ b0, bestElem (l.filter fun x => key x.2 = some k) =
        some b0 := by
      match hgl : l.filter fun x => key x.2 = some k with
      | [] => rw [hgl] at hg2; simp at hg2
      | h :: t => rw [hgl]; exact ⟨_, rfl⟩
    calc (l.countP fun a =>
          ((passKeep key l a).map fun out => decide (key out.2 = some k)).getD
            false) ≤
        l.countP fun ts => decide (ts.1 = b0.1) := by
          apply List.countP_mono_left
          intro ts hts hq
          match hout : passKeep key l ts with
          | none => rw [hout] at hq; simp at hq
          | some out =>
              rw [hout] at hq
              simp only [Option.map_some', Option.getD_some,
                decide_eq_true_eq] at hq
              simp only [decide_eq_true_eq]
              rcases passKeep_cases hout with ⟨rfl, hnone⟩ |
                ⟨rfl, k2, hk2, hsmall⟩ |
                ⟨k2, b, m, hk2, hsz, hb, hm, htag, hout2⟩
              · rw [hnone] at hq; exact absurd hq (by simp)
              · rw [hk2] at hq
                simp only [Option.some.injEq] at hq
                rw [hq] at hsmall
                omega
              · have hkm := hpres k2 m hsz hm
                rw [hout2] at hq
                dsimp only at hq
                rw [hkm] at hq
                simp only [Option.some.injEq] at hq
                rw [hq] at hb
                rw [hb0] at hb
                simp only [Option.some.injEq] at hb
                rw [htag, hb]
      _ ≤ 1 := countP_tag_le_one l hnodup b0.1

/-- A pass cannot grow any group of a secondary key that the merge
preserves: each kept song has a distinct source with the same secondary
key. -/
theorem passBy_count_le {K K2 : Type} [DecidableEq K] [DecidableEq K2]
    (key : Song → Option K) (key2 : Song → Option K2) (l : List TSong)
    (hnodup : (l.map (·.1)).Nodup)
    (hpres2 : ∀ (k : K) (b : TSong) (m : Song),
      bestElem (l.filter fun x => key x.2 = some k) = some b →
      mergedBest (l.filter fun x => key x.2 = some k) = some m →
      key2 m = key2 b.2)
    (k2 : K2) :
    (((passBy key l).1).filter fun ts => key2 ts.2 = some k2).length ≤
      (l.filter fun ts => key2 ts.2 = some k2).length := by
  show ((l.filterMap (passKeep key l)).filter fun ts =>
    key2 ts.2 = some k2).length ≤ _
  rw [length_filter_filterMap, ← List.countP_eq_length_filter]
  apply List.countP_mono_left
  intro ts hts hq
  match hout : passKeep key l ts with
  | none => rw [hout] at hq; simp at hq
  | some out =>
      rw [hout] at hq
      simp only [Option.map_some', Option.getD_some, decide_eq_true_eq] at hq
      simp only [decide_eq_true_eq]
      rcases passKeep_cases hout with ⟨rfl, -⟩ | ⟨rfl, -⟩ |
        ⟨k, b, m, hk, hsz, hb, hm, htag, hout2⟩
      · exact hq
      · exact hq
      · have hk2m := hpres2 k b m hb hm
        rw [hout2] at hq
        dsimp only at hq
        rw [hk2m] at hq
        have hbmem : b ∈ l := (List.mem_filter.mp (bestElem_mem hb)).1
        have hts_eq : ts = b := nodup_tag_inj hnodup hts hbmem htag
        rw [hts_eq]
        exact hq

theorem bestElem_of_two {g : List TSong} (hsz : 2 ≤ g.length) :
    ∃ b, bestElem g = some b := by
  match g, hsz with
  | h :: t, _ => exact ⟨_, rfl⟩

theorem keyId_merge_pres (l : List TSong) : ∀ (k : Int) (m : Song),
    2 ≤ (l.filter fun x => keyId x.2 = some k).length →
    mergedBest (l.filter fun x => keyId x.2 = some k) = some m →
    keyId m = some k := by
  intro k m hsz hm
  obtain ⟨b, hb⟩ := bestElem_of_two hsz
  have hk : keyId b.2 = some k :=
    of_decide_eq_true (List.mem_filter.mp (bestElem_mem hb)).2
  have hid := mergedBest_song_id hb hm
  unfold keyId at hk ⊢
  rw [hid]
  exact hk

theorem keyKey_merge_pres (l : List TSong) : ∀ (k : String) (m : Song),
    2 ≤ (l.filter fun x => keyKey x.2 = some k).length →
    mergedBest (l.filter fun x => keyKey x.2 = some k) = some m →
    keyKey m = some k := by
  intro k m hsz hm
  obtain ⟨b, hb⟩ := bestElem_of_two hsz
  have hk : keyKey b.2 = some k :=
    of_decide_eq_true (List.mem_filter.mp (bestElem_mem hb)).2
  have hid := mergedBest_song_key hb hm
  unfold keyKey at hk ⊢
  rw [hid]
  exact hk

theorem keyMeta_merge_pres (l : List TSong)
    (hart : ∀ ts ∈ l, normMeta ts.2.artist ≠ "__no_meta__") :
    ∀ (k : String × String × String) (m : Song),
    2 ≤ (l.filter fun x => keyMeta x.2 = some k).length →
    mergedBest (l.filter fun x => keyMeta x.2 = some k) = some m →
    keyMeta m = some k := by
  intro k m hsz hm
  obtain ⟨b, hb⟩ := bestElem_of_two hsz
  have hk : keyMeta b.2 = some k :=
    of_decide_eq_true (List.mem_filter.mp (bestElem_mem hb)).2
  have hbl : b ∈ l := (List.mem_filter.mp (bestElem_mem hb)).1
  unfold mergedBest at hm
  rw [hb] at hm
  simp only [Option.map_some', Option.some.injEq] at hm
  have hsame : ∀ o ∈ (((l.filter fun x => keyMeta x.2 = some k).filter
      fun x => x.1 ≠ b.1).map (·.2)), keyMeta o = keyMeta b.2 := by
    intro o ho
    obtain ⟨x, hx, rfl⟩ := List.mem_map.mp ho
    have hx2 := (List.mem_filter.mp (List.mem_filter.mp hx).1).2
    rw [of_decide_eq_true hx2, hk]
  rw [← hm, keyMeta_foldl_merge b.2 _ (hart b hbl) hsame]
  exact hk

theorem keyId_pres2 {K : Type} [DecidableEq K] (key : Song → Option K)
    (l : List TSong) : ∀ (k : K) (b : TSong) (m : Song),
    bestElem (l.filter fun x => key x.2 = some k) = some b →
    mergedBest (l.filter fun x => key x.2 = some k) = some m →
    keyId m = keyId b.2 := by
  intro k b m hb hm
  unfold keyId
  rw [mergedBest_song_id hb hm]

theorem keyKey_pres2 {K : Type} [DecidableEq K] (key : Song → Option K)
    (l : List TSong) : ∀ (k : K) (b : TSong) (m : Song),
    bestElem (l.filter fun x => key x.2 = some k) = some b →
    mergedBest (l.filter fun x => key x.2 = some k) = some m →
    keyKey m = keyKey b.2 := by
  intro k b m hb hm
  unfold keyKey
  rw [mergedBest_song_key hb hm]

theorem filter_enum_length {α : Type} (p : α → Bool) (m : List α) :
    ((m.enum).filter fun ts => p ts.2).length = (m.filter p).length := by
  rw [← List.countP_eq_length_filter, ← List.countP_eq_length_filter]
  show ((List.enumFrom 0 m).countP fun ts => p ts.2) = m.countP p
  generalize 0 = n
  induction m generalizing n with
  | nil => rfl
  | cons x xs ih =>
      show ((n, x) :: List.enumFrom (n + 1) xs).countP (fun ts => p ts.2) = _
      rw [List.countP_cons, List.countP_cons, ih]

theorem filter_map_snd_length (p : Song → Bool) (l3 : List TSong) :
    ((l3.map (·.2)).filter p).length = (l3.filter fun ts => p ts.2).length := by
  rw [← List.countP_eq_length_filter, ← List.countP_eq_length_filter,
    List.countP_map]
  rfl

/-- A second dedup run over a list in which every `song_id`, `song_key` and
metadata group is already a singleton changes nothing and drops nothing. -/
theorem dedup_second_run (m : List Song)
    (h1 : ∀ k : Int, (m.filter fun s => keyId s = some k).length ≤ 1)
    (h2 : ∀ k : String, (m.filter fun s => keyKey s = some k).length ≤ 1)
    (h3 : ∀ k : String × String × String,
      (m.filter fun s => keyMeta s = some k).length ≤ 1) :
    dedup m = (m, []) := by
  have hu1 : ∀ k : Int,
      ((m.enum).filter fun ts => keyId ts.2 = some k).length ≤ 1 := fun k => by
    rw [filter_enum_length (fun s => decide (keyId s = some k)) m]; exact h1 k
  have hu2 : ∀ k : String,
      ((m.enum).filter fun ts => keyKey ts.2 = some k).length ≤ 1 := fun k => by
    rw [filter_enum_length (fun s => decide (keyKey s = some k)) m]; exact h2 k
  have hu3 : ∀ k : String × String × String,
      ((m.enum).filter fun ts => keyMeta ts.2 = some k).length ≤ 1 :=
    fun k => by
      rw [filter_enum_length (fun s => decide (keyMeta s = some k)) m]
      exact h3 k
  unfold dedup
  simp only [passBy_id keyId _ hu1, passBy_id keyKey _ hu2,
    passBy_id keyMeta _ hu3]
  rw [show (m.enum).map (·.2) = m from List.enum_map_snd m]
  rfl

/-- C5, counterexample to the claim as stated: dedup is *not* idempotent on
every input.  A record whose artist is literally `__no_meta__` collides with
the sentinel grouping key of metadata-less records; inheriting an album
inside that mixed group changes the record's metadata key, so the second run
finds a new duplicate pair and drops one more record. -/
theorem claim_C5_counterexample :
    (dedup (dedup
      [⟨"k1", none, "x", "__no_meta__", "", none, "", "", "", "P", "disc", "f"⟩,
       ⟨"x", none, "anything", "", "Z", none, "", "", "", "Q", "custom", "g"⟩,
       ⟨"k2", none, "x", "__no_meta__", "z", none, "", "", "", "R", "disc",
         "h"⟩]).1).2 ≠ [] := by
  decide

/-- C5, amended.  The three-pass dedup engine is idempotent on every input
record list in which no record's trimmed, lower-cased artist equals the
sentinel string `__no_meta__`: running the full dedup a second time on the
kept set of the first run drops zero additional records. -/
theorem claim_C5_dedup_idempotent (l : List Song)
    (hart : ∀ s ∈ l, normMeta s.artist ≠ "__no_meta__") :
    (dedup (dedup l).1).2 = [] := by
  have n0 : ((l.enum).map (·.1)).Nodup := by
    have h := List.enum_map_fst l
    have : (l.enum).map (·.1) = List.range l.length := h
    rw [this]
    exact List.nodup_range l.length
  have a0 : ∀ ts ∈ l.enum, normMeta ts.2.artist ≠ "__no_meta__" := by
    intro ts hts
    apply hart
    have := List.mem_map_of_mem Prod.snd hts
    rwa [List.enum_map_snd] at this
  have nA := passBy_nodup keyId l.enum n0
  have aA := passBy_artist keyId l.enum
    (fun a => normMeta a ≠ "__no_meta__") a0
  have nB := passBy_nodup keyKey (passBy keyId l.enum).1 nA
  have aB := passBy_artist keyKey (passBy keyId l.enum).1
    (fun a => normMeta a ≠ "__no_meta__") aA
  have u1 : ∀ k : Int, (((passBy keyId l.enum).1).filter fun ts =>
      keyId ts.2 = some k).length ≤ 1 :=
    passBy_uniq keyId l.enum n0 (keyId_merge_pres l.enum)
  have u2 : ∀ k : String, (((passBy keyKey (passBy keyId l.enum).1).1).filter
      fun ts => keyKey ts.2 = some k).length ≤ 1 :=
    passBy_uniq keyKey (passBy keyId l.enum).1 nA
      (keyKey_merge_pres (passBy keyId l.enum).1)
  have u2id : ∀ k : Int, (((passBy keyKey (passBy keyId l.enum).1).1).filter
      fun ts => keyId ts.2 = some k).length ≤ 1 := fun k =>
    le_trans (passBy_count_le keyKey keyId (passBy keyId l.enum).1 nA
      (keyId_pres2 keyKey (passBy keyId l.enum).1) k) (u1 k)
  have u3 : ∀ k : String × String × String,
      (((passBy keyMeta (passBy keyKey (passBy keyId l.enum).1).1).1).filter
        fun ts => keyMeta ts.2 = some k).length ≤ 1 :=
    passBy_uniq keyMeta (passBy keyKey (passBy keyId l.enum).1).1 nB
      (keyMeta_merge_pres (passBy keyKey (passBy keyId l.enum).1).1 aB)
  have u3id : ∀ k : Int,
      (((passBy keyMeta (passBy keyKey (passBy keyId l.enum).1).1).1).filter
        fun ts => keyId ts.2 = some k).length ≤ 1 := fun k =>
    le_trans (passBy_count_le keyMeta keyId
      (passBy keyKey (passBy keyId l.enum).1).1 nB
      (keyId_pres2 keyMeta (passBy keyKey (passBy keyId l.enum).1).1) k)
      (u2id k)
  have u3key : ∀ k : String,
      (((passBy keyMeta (passBy keyKey (passBy keyId l.enum).1).1).1).filter
        fun ts => keyKey ts.2 = some k).length ≤ 1 := fun k =>
    le_trans (passBy_count_le keyMeta keyKey
      (passBy keyKey (passBy keyId l.enum).1).1 nB
      (keyKey_pres2 keyMeta (passBy keyKey (passBy keyId l.enum).1).1) k)
      (u2 k)
  have hfst : (dedup l).1 =
      ((passBy keyMeta (passBy keyKey (passBy keyId l.enum).1).1).1).map
        (·.2) := rfl
  have s1 : ∀ k : Int, (((dedup l).1).filter fun s =>
      keyId s = some k).length ≤ 1 := fun k => by
    rw [hfst, filter_map_snd_length (fun s => decide (keyId s = some k))]
    exact u3id k
  have s2 : ∀ k : String, (((dedup l).1).filter fun s =>
      keyKey s = some k).length ≤ 1 := fun k => by
    rw [hfst, filter_map_snd_length (fun s => decide (keyKey s = some k))]
    exact u3key k
  have s3 : ∀ k : String × String × String, (((dedup l).1).filter fun s =>
      keyMeta s = some k).length ≤ 1 := fun k => by
    rw [hfst, filter_map_snd_length (fun s => decide (keyMeta s = some k))]
    exact u3 k
  rw [dedup_second_run ((dedup l).1) s1 s2 s3]

/-- C5 witness: the amended idempotence theorem on the spec's end-to-end
example pair. -/
theorem claim_C5_dedup_idempotent_witness :
    (dedup (dedup
      [⟨"a", some 100, "Help!", "Beatles", "", none, "", "", "", "BASE",
         "disc", "f"⟩,
       ⟨"b", some 100, "Help!", "Beatles", "Abbey", some 1965, "", "", "",
         "Cst", "custom", "g"⟩]).1).2 = [] :=
  claim_C5_dedup_idempotent _ (by decide)

/-! Helper lemmas for C7: the decimal printer, the escape round trip, the
lexer on rendered fragments, and the parser on well-formed token streams. -/

theorem digitChar_props (m : Nat) (hm : m < 10) :
    pyIsDigit (Char.ofNat (48 + m)) = true ∧
    tokenSafeChar (Char.ofNat (48 + m)) = true ∧
    Char.ofNat (48 + m) ≠ '\'' ∧
    (Char.ofNat (48 + m)).toNat = 48 + m := by
  interval_cases m <;> exact ⟨by decide, by decide, by decide, by decide⟩

theorem natDecAux_all (fuel : Nat) : ∀ n, n < fuel →
    (natDecAux fuel n).all
      (fun c => pyIsDigit c && tokenSafeChar c && c ≠ '\'') = true := by
  induction fuel with
  | zero => intro n h; omega
  | succ f ih =>
      intro n h
      unfold natDecAux
      by_cases h10 : n < 10
      · rw [if_pos h10]
        obtain ⟨d1, d2, d3, _⟩ := digitChar_props n h10
        simp [d1, d2, d3]
      · rw [if_neg h10, List.all_append, Bool.and_eq_true]
        refine ⟨ih (n / 10) (by omega), ?_⟩
        obtain ⟨d1, d2, d3, _⟩ := digitChar_props (n % 10) (by omega)
        simp [d1, d2, d3]

theorem natDecAux_ne_nil (fuel n : Nat) (h : n < fuel) :
    natDecAux fuel n ≠ [] := by
  cases fuel with
  | zero => omega
  | succ f =>
      unfold natDecAux
      by_cases h10 : n < 10
      · rw [if_pos h10]; simp
      · rw [if_neg h10]; simp

theorem natDecAux_foldl (fuel : Nat) : ∀ n, n < fuel →
    (natDecAux fuel n).foldl
      (fun (a : Int) (c : Char) =>
        10 * a + ((c.toNat : Int) - ('0'.toNat : Int))) 0 = n := by
  induction fuel with
  | zero => intro n h; omega
  | succ f ih =>
      intro n h
      unfold natDecAux
      by_cases h10 : n < 10
      · rw [if_pos h10]
        obtain ⟨_, _, _, d4⟩ := digitChar_props n h10
        simp [d4]
      · rw [if_neg h10]
        rw [List.foldl_append, ih (n / 10) (by omega)]
        obtain ⟨_, _, _, d4⟩ := digitChar_props (n % 10) (by omega)
        simp [d4]
        omega

theorem natDec_props (n : Nat) :
    (natDecAux (n + 1) n).all pyIsDigit = true ∧
    (natDecAux (n + 1) n).all tokenSafeChar = true ∧
    (∀ c ∈ natDecAux (n + 1) n, c ≠ '\'') := by
  have h := natDecAux_all (n + 1) n (by omega)
  rw [List.all_eq_true] at h
  refine ⟨List.all_eq_true.mpr fun c hc => ?_,
    List.all_eq_true.mpr fun c hc => ?_, fun c hc => ?_⟩
  · have := h c hc
    simp only [Bool.and_eq_true] at this
    exact this.1.1
  · have := h c hc
    simp only [Bool.and_eq_true] at this
    exact this.1.2
  · have := h c hc
    simp only [Bool.and_eq_true, decide_eq_true_eq] at this
    exact this.2

theorem bareTok_eq_self (s : List Char) (h : s.head? ≠ some '\'') :
    bareTok s = s := by
  unfold bareTok
  rw [if_neg]
  intro hb
  simp only [Bool.and_eq_true, decide_eq_true_eq] at hb
  exact h hb.1.2

theorem head_ne_of_all {s : List Char} (h : ∀ c ∈ s, c ≠ '\'') :
    s.head? ≠ some '\'' := by
  cases s with
  | nil => simp
  | cons c cs => simpa using h c (by simp)

theorem bareTok_of_false {s : List Char}
    (h : (1 < s.length && s.head? = some '\'' &&
      s.getLast? = some '\'') = false) :
    bareTok s = s := by
  unfold bareTok
  rw [h]
  simp

theorem bareTok_wrap (k : List Char) :
    bareTok ('\'' :: k ++ ['\'']) = k := by
  unfold bareTok
  rw [if_pos]
  · simp [List.dropLast_concat]
  · simp only [Bool.and_eq_true, decide_eq_true_eq]
    refine ⟨⟨?_, by simp⟩, ?_⟩
    · simp only [List.cons_append, List.length_cons, List.length_append]
      omega
    · exact List.getLast?_concat _

theorem tokenSafe_spec {c : Char} (h : tokenSafeChar c = true) :
    pyIsSpace c = false ∧ c ≠ '(' ∧ c ≠ ')' ∧ c ≠ '"' ∧ c ≠ '\\' := by
  simp only [tokenSafeChar, Bool.and_eq_true, Bool.not_eq_true',
    decide_eq_true_eq] at h
  exact ⟨h.1.1.1.1, h.1.1.1.2, h.1.1.2, h.1.2, h.2⟩

theorem needsQuote_safe {s : List Char} (hs : s.all tokenSafeChar = true) :
    needsQuote s = false := by
  cases hq : needsQuote s
  · rfl
  · exfalso
    obtain ⟨c, hc, hcp⟩ := List.any_eq_true.mp hq
    obtain ⟨h1, h2, h3, h4, h5⟩ := tokenSafe_spec (List.all_eq_true.mp hs c hc)
    simp only [Bool.or_eq_true, decide_eq_true_eq] at hcp
    rcases hcp with (((rfl | rfl) | rfl) | rfl) | rfl
    · exact absurd h1 (by decide)
    · exact h2 rfl
    · exact h3 rfl
    · exact h4 rfl
    · exact h5 rfl

theorem tokCore_open (l : List Char) :
    tokCore .norm ('(' :: l) = ['('] :: tokCore .norm l := rfl

theorem tokCore_close (l : List Char) :
    tokCore .norm (')' :: l) = [')'] :: tokCore .norm l := rfl

theorem tokCore_sp (l : List Char) :
    tokCore .norm (' ' :: l) = tokCore .norm l := rfl

theorem tokCore_indent (l : List Char) :
    tokCore .norm ('\n' :: ' ' :: ' ' :: ' ' :: l) = tokCore .norm l := rfl

theorem tokCore_open_sp (l : List Char) :
    tokCore .norm ('(' :: ' ' :: ' ' :: ' ' :: l) =
      ['('] :: tokCore .norm l := rfl

theorem tokCore_cons (st : TokSt) (c : Char) (cs : List Char) :
    tokCore st (c :: cs) = (tokStep st c).2 ++ tokCore (tokStep st c).1 cs := by
  cases hstep : tokStep st c with
  | mk st2 ts =>
      rw [tokCore, hstep]

theorem tokCore_bare_acc (d : Char) (hd : isDelim d = true) (rest : List Char) :
    ∀ s acc, s.all tokenSafeChar = true →
      tokCore (.bare acc) (s ++ d :: rest) =
        bareTok (acc ++ s) :: tokCore .norm (d :: rest) := by
  intro s
  induction s with
  | nil =>
      intro acc _
      rw [List.append_nil, List.nil_append]
      simp only [isDelim, Bool.or_eq_true, decide_eq_true_eq] at hd
      rw [tokCore_cons (.bare acc) d rest, tokCore_cons .norm d rest]
      rcases hd with (hsp | rfl) | rfl
      · simp only [tokStep]
        rw [if_pos hsp, if_pos hsp]
        rfl
      · rfl
      · rfl
  | cons c cs ih =>
      intro acc hall
      rw [List.all_cons, Bool.and_eq_true] at hall
      obtain ⟨h1, h2, h3, _, _⟩ := tokenSafe_spec hall.1
      rw [List.cons_append, tokCore_cons]
      simp only [tokStep]
      rw [if_neg (by simp [h1]), if_neg (by simp [h2, h3])]
      show tokCore (.bare (acc ++ [c])) (cs ++ d :: rest) = _
      rw [ih (acc ++ [c]) hall.2]
      simp [List.append_assoc]

theorem tokCore_bareTok (d : Char) (hd : isDelim d = true) (rest s : List Char)
    (hne : s ≠ []) (hs : s.all tokenSafeChar = true) :
    tokCore .norm (s ++ d :: rest) = bareTok s :: tokCore .norm (d :: rest) := by
  cases s with
  | nil => exact absurd rfl hne
  | cons c cs =>
      rw [List.all_cons, Bool.and_eq_true] at hs
      obtain ⟨h1, h2, h3, h4, _⟩ := tokenSafe_spec hs.1
      rw [List.cons_append, tokCore_cons]
      simp only [tokStep]
      rw [if_neg (by simp [h1]), if_neg (by simp [h2, h3]), if_neg (by simp [h4])]
      show tokCore (.bare [c]) (cs ++ d :: rest) = _
      rw [tokCore_bare_acc d hd rest cs [c] hs.2]
      rfl

theorem tokCore_instr_escape (rest : List Char) : ∀ s acc,
    tokCore (.instr acc) (escapeDta s ++ '"' :: rest) =
      (acc ++ s) :: tokCore .norm rest := by
  intro s
  induction s with
  | nil =>
      intro acc
      rw [List.append_nil]
      rfl
  | cons c cs ih =>
      intro acc
      by_cases hb : c = '\\'
      · subst hb
        have := ih (acc ++ ['\\'])
        show tokCore (.instr (acc ++ ['\\'])) (escapeDta cs ++ '"' :: rest) = _
        rw [this]
        simp [List.append_assoc]
      · by_cases hq : c = '"'
        · subst hq
          have := ih (acc ++ ['"'])
          show tokCore (.instr (acc ++ ['"'])) (escapeDta cs ++ '"' :: rest) = _
          rw [this]
          simp [List.append_assoc]
        · have hfc : escapeDta (c :: cs) ++ '"' :: rest =
              c :: (escapeDta cs ++ '"' :: rest) := by
            simp [escapeDta, hb, hq]
          rw [hfc, tokCore_cons]
          simp only [tokStep]
          rw [if_neg hb, if_neg hq]
          show tokCore (.instr (acc ++ [c])) (escapeDta cs ++ '"' :: rest) = _
          rw [ih (acc ++ [c])]
          simp [List.append_assoc]

theorem tokCore_quoted (s rest : List Char) :
    tokCore .norm ('"' :: (escapeDta s ++ '"' :: rest)) =
      s :: tokCore .norm rest := by
  have h := tokCore_instr_escape rest s []
  rw [List.nil_append] at h
  exact h

theorem intercalate_empty {α : Type} (sep : List α) :
    List.intercalate sep [] = [] := by
  simp [List.intercalate]

theorem intercalate_singleton {α : Type} (sep x : List α) :
    List.intercalate sep [x] = x := by
  simp [List.intercalate]

theorem intercalate_cons₂ {α : Type} (sep x y : List α) (zs : List (List α)) :
    List.intercalate sep (x :: y :: zs) =
      x ++ sep ++ List.intercalate sep (y :: zs) := by
  simp [List.intercalate, List.intersperse, List.append_assoc]

/-- Unpacking of `goodKey` (and of `bareSafe`, which has the same body). -/
theorem goodKey_parts {k : List Char} (h : goodKey k = true) :
    k ≠ [] ∧ k.all tokenSafeChar = true ∧ pyStrIsDigit k = false ∧
      (1 < k.length && k.head? = some '\'' &&
        k.getLast? = some '\'') = false := by
  simp only [goodKey, Bool.and_eq_true, Bool.not_eq_true'] at h
  refine ⟨fun hnil => ?_, h.1.1.2, h.1.2, h.2⟩
  subst hnil
  simpa using h.1.1.1

mutual

theorem tok_formatValue (v : Node) (hv : goodNode v = true) (d : Char)
    (hd : isDelim d = true) (rest : List Char) :
    tokCore .norm (formatValue v ++ d :: rest) =
      nodeToks v ++ tokCore .norm (d :: rest) := by
  cases v with
  | int i =>
      have hi : 0 ≤ i := by simpa [goodNode] using hv
      obtain ⟨n, rfl⟩ := Int.eq_ofNat_of_zero_le hi
      obtain ⟨hdig, hsafe, hnq⟩ := natDec_props n
      show tokCore .norm (natDecAux (n + 1) n ++ d :: rest) = _
      rw [tokCore_bareTok d hd rest _ (natDecAux_ne_nil _ _ (by omega)) hsafe,
        bareTok_eq_self _ (head_ne_of_all hnq)]
      rfl
  | str s =>
      have hgs : goodStr s = true := by simpa [goodNode] using hv
      by_cases hq : needsQuote s = true
      · have hfv : formatValue (.str s) ++ d :: rest =
            '"' :: (escapeDta s ++ '"' :: (d :: rest)) := by
          simp [formatValue, hq, List.append_assoc]
        rw [hfv, tokCore_quoted]
        rfl
      · have hq2 : needsQuote s = false := by
          cases hqq : needsQuote s
          · rfl
          · exact absurd hqq hq
        rw [goodStr, if_neg (by simp [hq2])] at hgs
        have hspec := goodKey_parts hgs
        have hfv : formatValue (.str s) = s := by
          simp [formatValue, hq2]
        rw [hfv, tokCore_bareTok d hd rest s hspec.1 hspec.2.1,
          bareTok_of_false hspec.2.2.2]
        rfl
  | list vs =>
      have hgs : goodNodes vs = true := by simpa [goodNode] using hv
      have hfv : formatValue (.list vs) ++ d :: rest =
          '(' :: (List.intercalate [' '] (formatValues vs) ++
            ')' :: d :: rest) := by
        simp [formatValue, List.append_assoc]
      rw [hfv, tokCore_open, tok_formatValues vs hgs (d :: rest), tokCore_close]
      simp [nodeToks, List.append_assoc]

theorem tok_formatValues (vs : List Node) (hv : goodNodes vs = true)
    (rest : List Char) :
    tokCore .norm (List.intercalate [' '] (formatValues vs) ++ ')' :: rest) =
      nodeToksList vs ++ tokCore .norm (')' :: rest) := by
  cases vs with
  | nil =>
      show tokCore .norm (List.intercalate [' '] [] ++ ')' :: rest) = _
      rw [intercalate_empty, List.nil_append]
      rfl
  | cons v vs0 =>
      have h1 : goodNode v = true ∧ goodNodes vs0 = true := by
        simpa [goodNodes, Bool.and_eq_true] using hv
      cases vs0 with
      | nil =>
          show tokCore .norm
            (List.intercalate [' '] [formatValue v] ++ ')' :: rest) = _
          rw [intercalate_singleton,
            tok_formatValue v h1.1 ')' (by decide) rest]
          simp [nodeToksList]
      | cons w ws =>
          show tokCore .norm (List.intercalate [' ']
            (formatValue v :: formatValue w :: formatValues ws) ++
            ')' :: rest) = _
          rw [intercalate_cons₂]
          have hre : (formatValue v ++ [' '] ++
              List.intercalate [' ']
                (formatValue w :: formatValues ws)) ++ ')' :: rest =
              formatValue v ++ ' ' :: (List.intercalate [' ']
                (formatValue w :: formatValues ws) ++ ')' :: rest) := by
            simp [List.append_assoc]
          rw [hre, tok_formatValue v h1.1 ' ' (by decide) _, tokCore_sp,
            show (formatValue w :: formatValues ws) = formatValues (w :: ws)
              from rfl,
            tok_formatValues (w :: ws) h1.2 rest]
          simp [nodeToksList, List.append_assoc]

end

/-- The non-key lines of a rendered entry always continue with a newline. -/
theorem body_head (ws : List Node) (r : List Char) :
    ∃ tl, (ws.flatMap fun w => '\n' :: ("   ".data ++ formatValue w)) ++
      '\n' :: r = '\n' :: tl := by
  cases ws with
  | nil => exact ⟨r, by simp⟩
  | cons w ws0 =>
      refine ⟨("   ".data ++ formatValue w) ++
        ((ws0.flatMap fun w => '\n' :: ("   ".data ++ formatValue w)) ++
          '\n' :: r), ?_⟩
      simp [List.flatMap_cons, List.append_assoc]

/-- Tokenizing the indented field lines plus the closing paren line of a
rendered entry. -/
theorem tok_body (rest : List Node) : goodNodes rest = true →
    tokCore .norm ((rest.flatMap fun w =>
        '\n' :: ("   ".data ++ formatValue w)) ++ ['\n', ')', '\n']) =
      nodeToksList rest ++ [[')']] := by
  induction rest with
  | nil => intro _; rfl
  | cons w ws ih =>
      intro h
      have h1 : goodNode w = true ∧ goodNodes ws = true := by
        simpa [goodNodes, Bool.and_eq_true] using h
      have hstep : ((w :: ws).flatMap fun w =>
          '\n' :: ("   ".data ++ formatValue w)) ++ ['\n', ')', '\n'] =
          '\n' :: ' ' :: ' ' :: ' ' :: (formatValue w ++
            ((ws.flatMap fun w => '\n' :: ("   ".data ++ formatValue w)) ++
              ['\n', ')', '\n'])) := by
        simp only [List.flatMap_cons, List.append_assoc]
        rfl
      rw [hstep, tokCore_indent]
      obtain ⟨tl, htl⟩ := body_head ws [')', '\n']
      rw [htl, tok_formatValue w h1.1 '\n' (by decide) tl, ← htl, ih h1.2]
      simp [nodeToksList, List.append_assoc]

/-- Tokenizing a full rendered singleton entry file yields exactly the
entry's token stream. -/
theorem tokenize_entry (k : List Char) (rest : List Node)
    (hk : goodKey k = true) (hr : goodNodes rest = true) :
    tokenize (formatDtaEntries [Node.list (Node.str k :: rest)]) =
      (['('] : List Char) :: k :: (nodeToksList rest ++ [[')']]) := by
  obtain ⟨hne, hsafe, hdig, hstrip⟩ := goodKey_parts hk
  have hnq : needsQuote k = false := needsQuote_safe hsafe
  have hfi : formatValue (Node.str k) = k := by
    simp [formatValue, hnq]
  have h0 : formatDtaEntries [Node.list (Node.str k :: rest)] =
      formatTop (Node.list (Node.str k :: rest)) ++ ['\n'] := by
    show List.intercalate ['\n'] [formatTop (Node.list (Node.str k :: rest))]
      ++ ['\n'] = _
    rw [intercalate_singleton]
  rw [tokenize, h0]
  show tokCore .norm ((
      (if (formatValue (Node.str k)).head? = some '\'' then
        "(   ".data ++ formatValue (Node.str k)
      else "(   '".data ++ formatValue (Node.str k) ++ ['\'']) ++
      (rest.flatMap fun w => '\n' :: ("   ".data ++ formatValue w)) ++
      ['\n', ')']) ++ ['\n']) = _
  rw [hfi]
  obtain ⟨tl, htl⟩ := body_head rest [')', '\n']
  by_cases hh : k.head? = some '\''
  · rw [if_pos hh]
    have hmass : (("(   ".data ++ k) ++
        (rest.flatMap fun w => '\n' :: ("   ".data ++ formatValue w)) ++
        ['\n', ')']) ++ ['\n'] =
        '(' :: ' ' :: ' ' :: ' ' :: (k ++
          ((rest.flatMap fun w => '\n' :: ("   ".data ++ formatValue w)) ++
            ['\n', ')', '\n'])) := by
      simp only [List.append_assoc]
      rfl
    rw [hmass, tokCore_open_sp, htl,
      tokCore_bareTok '\n' (by decide) tl k hne hsafe,
      bareTok_of_false hstrip, ← htl, tok_body rest hr]
  · rw [if_neg hh]
    have hsafeB : ('\'' :: k ++ ['\'']).all tokenSafeChar = true := by
      rw [List.cons_append, List.all_cons, List.all_append]
      simp only [hsafe, Bool.and_eq_true, Bool.true_and]
      exact ⟨by decide, by decide⟩
    have hmass : (("(   '".data ++ k ++ ['\'']) ++
        (rest.flatMap fun w => '\n' :: ("   ".data ++ formatValue w)) ++
        ['\n', ')']) ++ ['\n'] =
        '(' :: ' ' :: ' ' :: ' ' :: (('\'' :: k ++ ['\'']) ++
          ((rest.flatMap fun w => '\n' :: ("   ".data ++ formatValue w)) ++
            ['\n', ')', '\n'])) := by
      simp only [List.cons_append, List.append_assoc]
      rfl
    rw [hmass, tokCore_open_sp, htl,
      tokCore_bareTok '\n' (by decide) tl _ (by simp) hsafeB,
      bareTok_wrap k, ← htl, tok_body rest hr]

theorem atomOf_natDec (n : Nat) :
    atomOf (natDecAux (n + 1) n) = .int (n : Int) := by
  obtain ⟨hdig, _, _⟩ := natDec_props n
  have hne := natDecAux_ne_nil (n + 1) n (by omega)
  rw [atomOf, if_pos]
  · congr 1
    exact natDecAux_foldl (n + 1) n (by omega)
  · rw [pyStrIsDigit, hdig, Bool.and_true, Bool.not_eq_true']
    cases hcase : natDecAux (n + 1) n
    · exact absurd hcase hne
    · rfl

theorem atomOf_str {s : List Char} (h : pyStrIsDigit s = false) :
    atomOf s = .str s := by
  rw [atomOf, if_neg]
  simp [h]

theorem pyStrIsDigit_false_of_quote {s : List Char}
    (hq : needsQuote s = true) : pyStrIsDigit s = false := by
  obtain ⟨c, hc, hcp⟩ := List.any_eq_true.mp hq
  simp only [Bool.or_eq_true, decide_eq_true_eq] at hcp
  have hcd : pyIsDigit c = false := by
    rcases hcp with (((rfl | rfl) | rfl) | rfl) | rfl <;> rfl
  have hall : s.all pyIsDigit = false := by
    cases hcase : s.all pyIsDigit
    · rfl
    · exact absurd (List.all_eq_true.mp hcase c hc) (by simp [hcd])
  simp [pyStrIsDigit, hall]

theorem ne_paren_of_safe {s : List Char} (h : s.all tokenSafeChar = true) :
    s ≠ ['('] ∧ s ≠ [')'] := by
  refine ⟨fun he => ?_, fun he => ?_⟩ <;>
    (subst he; exact absurd h (by decide))

/-- Parsing a well-formed token stream up to its closing paren. -/
theorem parseMany_toks : ∀ (fuel : Nat) (vs : List Node)
    (ts : List (List Char)), goodNodes vs = true →
    (nodeToksList vs).length + 1 ≤ fuel →
    parseMany fuel (nodeToksList vs ++ ([')'] : List Char) :: ts) =
      (vs, ts) := by
  intro fuel
  induction fuel with
  | zero => intro vs ts _ hf; omega
  | succ f ih =>
      intro vs ts hg hf
      cases vs with
      | nil => rfl
      | cons v vs2 =>
          have hgv : goodNode v = true ∧ goodNodes vs2 = true := by
            simpa [goodNodes, Bool.and_eq_true] using hg
          cases v with
          | int i =>
              have hi : 0 ≤ i := by simpa [goodNode] using hgv.1
              obtain ⟨n, rfl⟩ := Int.eq_ofNat_of_zero_le hi
              have hnp := ne_paren_of_safe (natDec_props n).2.1
              have hshape : nodeToksList (Node.int (n : Int) :: vs2) ++
                  ([')'] : List Char) :: ts =
                  natDecAux (n + 1) n ::
                    (nodeToksList vs2 ++ ([')'] : List Char) :: ts) := by
                show (nodeToks (Node.int (n : Int)) ++ nodeToksList vs2)
                  ++ _ = _
                simp [nodeToks, intDec, List.append_assoc]
              have hlen : (nodeToksList vs2).length + 1 ≤ f := by
                have h2 : (nodeToksList (Node.int (n : Int) :: vs2)).length
                    = (nodeToksList vs2).length + 1 := by
                  show (nodeToks (Node.int (n : Int)) ++
                    nodeToksList vs2).length = _
                  simp [nodeToks]
                omega
              rw [hshape]
              unfold parseMany
              rw [if_neg hnp.2, if_neg hnp.1]
              dsimp only
              rw [ih vs2 ts hgv.2 hlen, atomOf_natDec]
          | str s =>
              have hgs : goodStr s = true := by simpa [goodNode] using hgv.1
              have hfacts : (s ≠ ['('] ∧ s ≠ [')']) ∧ atomOf s = .str s := by
                by_cases hq : needsQuote s = true
                · rw [goodStr, if_pos (by simp [hq])] at hgs
                  simp only [Bool.and_eq_true, decide_eq_true_eq] at hgs
                  exact ⟨⟨hgs.1, hgs.2⟩,
                    atomOf_str (pyStrIsDigit_false_of_quote hq)⟩
                · rw [goodStr, if_neg (by simp [hq])] at hgs
                  obtain ⟨_, hsafe, hsd, _⟩ := goodKey_parts hgs
                  exact ⟨ne_paren_of_safe hsafe, atomOf_str hsd⟩
              have hshape : nodeToksList (Node.str s :: vs2) ++
                  ([')'] : List Char) :: ts =
                  s :: (nodeToksList vs2 ++ ([')'] : List Char) :: ts) := by
                show (nodeToks (Node.str s) ++ nodeToksList vs2) ++ _ = _
                simp [nodeToks, List.append_assoc]
              have hlen : (nodeToksList vs2).length + 1 ≤ f := by
                have h2 : (nodeToksList (Node.str s :: vs2)).length
                    = (nodeToksList vs2).length + 1 := by
                  show (nodeToks (Node.str s) ++ nodeToksList vs2).length = _
                  simp [nodeToks]
                omega
              rw [hshape]
              unfold parseMany
              rw [if_neg hfacts.1.2, if_neg hfacts.1.1]
              dsimp only
              rw [ih vs2 ts hgv.2 hlen, hfacts.2]
          | list ws =>
              have hgw : goodNodes ws = true := by simpa [goodNode] using hgv.1
              have hshape : nodeToksList (Node.list ws :: vs2) ++
                  ([')'] : List Char) :: ts =
                  (['('] : List Char) :: (nodeToksList ws ++
                    ([')'] : List Char) :: (nodeToksList vs2 ++
                      ([')'] : List Char) :: ts)) := by
                show (nodeToks (Node.list ws) ++ nodeToksList vs2) ++ _ = _
                simp [nodeToks, List.append_assoc]
              have h2 : (nodeToksList (Node.list ws :: vs2)).length
                  = (nodeToksList ws).length + (nodeToksList vs2).length
                    + 2 := by
                show (nodeToks (Node.list ws) ++ nodeToksList vs2).length = _
                simp [nodeToks]
                omega
              rw [hshape]
              unfold parseMany
              rw [if_neg (by decide), if_pos rfl]
              dsimp only
              rw [ih ws _ hgw (by omega), ih vs2 ts hgv.2 (by omega)]

/-- C7, counterexample to the claim as stated: the entry
`['k', '5']` — a song key with a string field whose value is the digit
string `"5"` — serializes to a bare `5`, which the parser reads back as the
integer `5`, so the round trip is not structurally equal for every freshly
composed entry. -/
theorem claim_C7_counterexample :
    parseText (formatDtaEntries
        [Node.list [Node.str "k".data, Node.str "5".data]]) ≠
      [Node.list [Node.str "k".data, Node.str "5".data]] := by
  intro h
  have h2 : ([Node.list [Node.str "k".data, Node.int 5]] : List Node) =
      [Node.list [Node.str "k".data, Node.str "5".data]] := h
  injection h2 with h3 h4
  injection h3 with h5
  injection h5 with h6 h7
  injection h7 with h8 h9
  injection h8

/-- C7, amended.  For every well-formed freshly composed entry — a list
whose head is a bare-safe song key and whose other nodes are nonnegative
integers, round-trip-safe strings, or lists of such —
`parse_tokens(tokenize(format_dta_entries([entry])))` is structurally equal
to `[entry]`. -/
theorem claim_C7_round_trip (e : Node) (he : goodEntry e = true) :
    parseText (formatDtaEntries [e]) = [e] := by
  cases e with
  | int i => exact Bool.noConfusion he
  | str s => exact Bool.noConfusion he
  | list vs =>
      cases vs with
      | nil => exact Bool.noConfusion he
      | cons v rest =>
          cases v with
          | int i => exact Bool.noConfusion he
          | list ws => exact Bool.noConfusion he
          | str k =>
              have hk : goodKey k = true ∧ goodNodes rest = true := by
                simpa [goodEntry, Bool.and_eq_true] using he
              have hgsk : goodStr k = true := by
                rw [goodStr, if_neg
                  (by simp [needsQuote_safe (goodKey_parts hk.1).2.1])]
                exact hk.1
              have hgood : goodNodes (Node.str k :: rest) = true := by
                show (goodNode (Node.str k) && goodNodes rest) = true
                rw [Bool.and_eq_true]
                exact ⟨hgsk, hk.2⟩
              show parseTokens (tokenize
                (formatDtaEntries [Node.list (Node.str k :: rest)])) = _
              rw [tokenize_entry k rest hk.1 hk.2]
              unfold parseTokens
              unfold parseTokensF
              rw [if_pos rfl]
              have hshape : k :: (nodeToksList rest ++ [[')']]) =
                  nodeToksList (Node.str k :: rest) ++
                    ([')'] : List Char) :: ([] : List (List Char)) := by
                show _ = (nodeToks (Node.str k) ++ nodeToksList rest) ++ _
                simp [nodeToks, List.append_assoc]
              rw [hshape]
              rw [parseMany_toks _ _ _ hgood (by simp)]
              dsimp only
              rw [parseTokensF_nil]

/-- C7 witness: the amended round-trip theorem on a concrete well-formed
entry with a name string, a quoted value and an integer year. -/
theorem claim_C7_round_trip_witness :
    parseText (formatDtaEntries [Node.list [Node.str "custom1".data,
      Node.list [Node.str "name".data, Node.str "My Song".data],
      Node.list [Node.str "year".data, Node.int 1965]]]) =
      [Node.list [Node.str "custom1".data,
        Node.list [Node.str "name".data, Node.str "My Song".data],
        Node.list [Node.str "year".data, Node.int 1965]]] :=
  claim_C7_round_trip _ (by rfl)

/-! Helper lemmas for C6: the patched field text, the replacement template,
and the field-pattern matcher on the canonical patched shape. -/

theorem cleanVal_parts {s : List Char} (h : cleanVal s = true) :
    ∀ c ∈ s, c ≠ '"' ∧ c ≠ '\\' ∧ c ≠ '(' ∧ c ≠ ')' := by
  intro c hc
  have := List.all_eq_true.mp h c hc
  simp only [Bool.and_eq_true, decide_eq_true_eq] at this
  exact ⟨this.1.1.1, this.1.1.2, this.1.2, this.2⟩

theorem fieldOk_no_bs {f : List Char} (h : fieldOk f = true) :
    ∀ c ∈ f, c ≠ '\\' := by
  intro c hc heq
  subst heq
  have h2 : f.all alnumU = true := by
    simp only [fieldOk, Bool.and_eq_true] at h
    exact h.2
  exact absurd (List.all_eq_true.mp h2 _ hc) (by decide)

theorem escapeDta_id {s : List Char} (h : ∀ c ∈ s, c ≠ '"' ∧ c ≠ '\\') :
    escapeDta s = s := by
  induction s with
  | nil => rfl
  | cons c cs ih =>
      have hc := h c (by simp)
      show (if c = '\\' then ['\\', '\\'] else
        if c = '"' then ['\\', '"'] else [c]) ++ escapeDta cs = c :: cs
      rw [if_neg hc.2, if_neg hc.1, ih fun x hx => h x (by simp [hx])]
      rfl

theorem templExpand_cons (c : Char) (hc : c ≠ '\\') (l : List Char) :
    templExpand (c :: l) = c :: templExpand l := by
  rw [templExpand.eq_def]
  split
  · next c2 rest2 heq =>
      injection heq with h1 h2
      exact absurd h1 hc
  · next c2 rest2 heq =>
      injection heq with h1 h2
      subst h1
      subst h2
      rfl
  · next heq => exact absurd heq (by simp)

theorem templExpand_id (l : List Char) (h : ∀ c ∈ l, c ≠ '\\') :
    templExpand l = l := by
  induction l with
  | nil => rfl
  | cons c cs ih =>
      rw [templExpand_cons c (h c (by simp)) cs,
        ih fun x hx => h x (by simp [hx])]

theorem takeWhile_clean (s y : List Char) (h : ∀ c ∈ s, c ≠ '"') :
    (s ++ '"' :: y).takeWhile (fun c => c ≠ '"') = s := by
  induction s with
  | nil => rfl
  | cons c cs ih =>
      rw [List.cons_append, List.takeWhile_cons,
        if_pos (by simp [h c (by simp)]),
        ih fun x hx => h x (by simp [hx])]

theorem ciPrefix_self (f x : List Char) : ciPrefix f (f ++ x) = true := by
  simp only [ciPrefix, lcs, List.map_append, decide_eq_true_eq]
  exact List.prefix_append _ _

/-- The field regex matches the canonical patched field text
`('FIELD' "VALUE")` at its start with exactly its own length, whatever
follows — in particular the double-quoted alternative wins even when the
next character is another closing paren. -/
theorem fieldMatchAt_patched (f s post : List Char) (hs : cleanVal s = true) :
    fieldMatchAt f (('(' :: '\'' :: f ++ '\'' :: ' ' :: '"' :: s ++
      ['"', ')']) ++ post) = some (f.length + s.length + 7) := by
  have hcl : ∀ c ∈ s, c ≠ '"' := fun c hc => (cleanVal_parts hs c hc).1
  have hdq : dqValue ('"' :: (s ++ ('"' :: ')' :: post))) =
      some (s.length + 3) := by
    show (match (s ++ ('"' :: ')' :: post)).drop
        ((s ++ ('"' :: ')' :: post)).takeWhile (fun c => c ≠ '"')).length with
      | '"' :: ')' :: _ => some (((s ++ ('"' :: ')' :: post)).takeWhile
          (fun c => c ≠ '"')).length + 3)
      | _ => none) = some (s.length + 3)
    rw [takeWhile_clean s (')' :: post) hcl, List.drop_left]
    rfl
  have hfv : fieldValue ('"' :: (s ++ ('"' :: ')' :: post))) =
      some (s.length + 3) := by
    unfold fieldValue
    rw [hdq]
    rfl
  have hwm : ws1Value.wsMoreValue ('"' :: (s ++ ('"' :: ')' :: post))) =
      some (s.length + 3) := by
    show fieldValue ('"' :: (s ++ ('"' :: ')' :: post))) = _
    exact hfv
  have hw1 : ws1Value (' ' :: '"' :: (s ++ ('"' :: ')' :: post))) =
      some (s.length + 4) := by
    show (ws1Value.wsMoreValue ('"' :: (s ++ ('"' :: ')' :: post)))).map
      (· + 1) = _
    rw [hwm]
    rfl
  have hq2 : quote2Value ('\'' :: ' ' :: '"' :: (s ++ ('"' :: ')' :: post))) =
      some (s.length + 5) := by
    show (match (ws1Value (' ' :: '"' :: (s ++ ('"' :: ')' :: post)))).map
        (· + 1) with
      | some k => some k
      | none => ws1Value ('\'' :: ' ' :: '"' :: (s ++ ('"' :: ')' :: post)))) =
        _
    rw [hw1]
    rfl
  have hft : fieldTail f (f ++ '\'' :: ' ' :: '"' :: (s ++
      ('"' :: ')' :: post))) = some (s.length + 5 + f.length) := by
    unfold fieldTail
    rw [if_pos (ciPrefix_self f _), List.drop_left, hq2]
    rfl
  have hA : (('(' :: '\'' :: f ++ '\'' :: ' ' :: '"' :: s ++
      ['"', ')']) ++ post) =
      '(' :: '\'' :: (f ++ '\'' :: ' ' :: '"' :: (s ++
        ('"' :: ')' :: post))) := by
    simp [List.append_assoc]
  rw [hA]
  show ((match (fieldTail f (f ++ '\'' :: ' ' :: '"' :: (s ++
        ('"' :: ')' :: post)))).map (· + 1) with
    | some k => some k
    | none => fieldTail f ('\'' :: (f ++ '\'' :: ' ' :: '"' :: (s ++
        ('"' :: ')' :: post))))).map (· + 1)) = some (f.length + s.length + 7)
  rw [hft]
  show some (s.length + 5 + f.length + 1 + 1) = some (f.length + s.length + 7)
  congr 1
  omega

/-- `re.subn`'s leftmost search: no match before position `n`, a match of
length `L` at `n`. -/
theorem fieldSearchAux_at (f : List Char) : ∀ (n : Nat) (t : List Char)
    (i L : Nat), (∀ j, j < n → fieldMatchAt f (t.drop j) = none) →
    fieldMatchAt f (t.drop n) = some L →
    fieldSearchAux f t i = some (i + n, L) := by
  intro n
  induction n with
  | zero =>
      intro t i L _ hm
      rw [List.drop_zero] at hm
      cases t with
      | nil =>
          show (match fieldMatchAt f [] with
            | some len => some (i, len)
            | none => none) = some (i + 0, L)
          rw [hm]
          rfl
      | cons c rest =>
          show (match fieldMatchAt f (c :: rest) with
            | some len => some (i, len)
            | none => fieldSearchAux f rest (i + 1)) = some (i + 0, L)
          rw [hm]
          rfl
  | succ m ih =>
      intro t i L h0 hm
      cases t with
      | nil =>
          rw [List.drop_nil] at hm
          exact Option.noConfusion
            (show (none : Option Nat) = some L from hm)
      | cons c rest =>
          have hnone : fieldMatchAt f (c :: rest) = none := by
            have := h0 0 (by omega)
            rwa [List.drop_zero] at this
          show (match fieldMatchAt f (c :: rest) with
            | some len => some (i, len)
            | none => fieldSearchAux f rest (i + 1)) = some (i + (m + 1), L)
          rw [hnone]
          have hsh : ∀ j, j < m → fieldMatchAt f (rest.drop j) = none :=
            fun j hj => h0 (j + 1) (by omega)
          have hm2 : fieldMatchAt f (rest.drop m) = some L := hm
          rw [ih rest (i + 1) L hsh hm2]
          rw [show i + (m + 1) = i + 1 + m from by omega]

/-- C6, counterexample to the claim as stated: patching `year` to the
integer 1969 inserts `('year' 1969)` before the entry's closing paren; on
the second patch the `\S+` value alternative greedily matches `1969)` and
the pattern's final `\)` then consumes the entry's own closing paren, so the
second application deletes a parenthesis and the text changes. -/
theorem claim_C6_counterexample :
    patchSongMetadata (patchSongMetadata "\n('song1 (name x))\n".data
        "song1".data [("year".data, FVal.int 1969)]) "song1".data
        [("year".data, FVal.int 1969)] ≠
      patchSongMetadata "\n('song1 (name x))\n".data "song1".data
        [("year".data, FVal.int 1969)] := by
  decide

/-- C6, amended.  For a nonempty string value free of `"`, `\`, `(` and `)`
and an alphanumeric-or-underscore field name, the patch is idempotent from
the first application onward: when the entry text contains the canonical
patched field text `('FIELD' "VALUE")` and the field pattern has no match
starting before it, patching the same field with the same value performs
exactly one replacement of that occurrence with byte-identical text — it
never inserts a duplicate field, and the entry text is unchanged. -/
theorem claim_C6_patch_idempotent (pre post f s : List Char)
    (hf : fieldOk f = true) (hs : cleanVal s = true) (hne : s ≠ [])
    (hpre : ∀ j, j < pre.length →
      fieldMatchAt f ((pre ++ ('(' :: '\'' :: f ++ '\'' :: ' ' :: '"' :: s ++
        ['"', ')']) ++ post).drop j) = none) :
    patchField (pre ++ ('(' :: '\'' :: f ++ '\'' :: ' ' :: '"' :: s ++
        ['"', ')']) ++ post) f (.str s) =
      (pre ++ ('(' :: '\'' :: f ++ '\'' :: ' ' :: '"' :: s ++
        ['"', ')']) ++ post, true) := by
  have hemp : FVal.isEmpty (.str s) = false := by
    cases s with
    | nil => exact absurd rfl hne
    | cons c cs => rfl
  have hdrop : (pre ++ ('(' :: '\'' :: f ++ '\'' :: ' ' :: '"' :: s ++
      ['"', ')']) ++ post).drop pre.length =
      ('(' :: '\'' :: f ++ '\'' :: ' ' :: '"' :: s ++ ['"', ')']) ++ post := by
    rw [List.append_assoc, List.drop_left]
  have hmatch : fieldMatchAt f ((pre ++ ('(' :: '\'' :: f ++ '\'' :: ' ' ::
      '"' :: s ++ ['"', ')']) ++ post).drop pre.length) =
      some (f.length + s.length + 7) := by
    rw [hdrop]
    exact fieldMatchAt_patched f s post hs
  have hsearch : fieldSearch f (pre ++ ('(' :: '\'' :: f ++ '\'' :: ' ' ::
      '"' :: s ++ ['"', ')']) ++ post) =
      some (pre.length, f.length + s.length + 7) := by
    have := fieldSearchAux_at f pre.length _ 0 _ hpre hmatch
    simpa [fieldSearch] using this
  have hlenP : ('(' :: '\'' :: f ++ '\'' :: ' ' :: '"' :: s ++
      ['"', ')']).length = f.length + s.length + 7 := by
    simp
    omega
  have hmem : ∀ c ∈ ('(' :: '\'' :: (f ++ '\'' :: ' ' :: '"' ::
      (s ++ ['"', ')']))), c ≠ '\\' := by
    intro c hc
    simp only [List.mem_cons, List.mem_append, List.mem_singleton,
      List.not_mem_nil, or_false] at hc
    rcases hc with rfl | rfl | hc | rfl | rfl | rfl | hc | rfl | rfl
    · decide
    · decide
    · exact fieldOk_no_bs hf c hc
    · decide
    · decide
    · decide
    · exact (cleanVal_parts hs c hc).2.1
    · decide
    · decide
  have htempl : templExpand ('(' :: '\'' :: f ++ '\'' :: ' ' ::
      formatFVal (.str s) ++ [')']) =
      '(' :: '\'' :: f ++ '\'' :: ' ' :: '"' :: s ++ ['"', ')'] := by
    have hesc : escapeDta s = s :=
      escapeDta_id fun c hc =>
        ⟨(cleanVal_parts hs c hc).1, (cleanVal_parts hs c hc).2.1⟩
    have heq : ('(' :: '\'' :: f ++ '\'' :: ' ' ::
        formatFVal (.str s) ++ [')']) =
        '(' :: '\'' :: (f ++ '\'' :: ' ' :: '"' :: (s ++ ['"', ')'])) := by
      rw [show formatFVal (.str s) = '"' :: escapeDta s ++ ['"'] from rfl,
        hesc]
      simp [List.append_assoc]
    rw [heq, templExpand_id _ hmem]
    simp [List.append_assoc]
  have htake : ((pre ++ ('(' :: '\'' :: f ++ '\'' :: ' ' :: '"' :: s ++
      ['"', ')']) ++ post)).take pre.length = pre := by
    rw [List.take_append_of_le_length (by simp),
      List.take_append_of_le_length (le_refl _), List.take_length]
  have hdrop2 : ((pre ++ ('(' :: '\'' :: f ++ '\'' :: ' ' :: '"' :: s ++
      ['"', ')']) ++ post)).drop
        (pre.length + (f.length + s.length + 7)) = post := by
    have h1 : (pre ++ ('(' :: '\'' :: f ++ '\'' :: ' ' :: '"' :: s ++
        ['"', ')'])).length = pre.length + (f.length + s.length + 7) := by
      rw [List.length_append, hlenP]
    rw [← h1, List.drop_left]
  unfold patchField
  rw [if_neg (by simp [hemp])]
  dsimp only
  rw [hsearch]
  dsimp only
  rw [htake, htempl, hdrop2]

/-- C6 witness: the amended idempotence theorem at a concrete entry whose
`album` field already carries the patched text. -/
theorem claim_C6_patch_idempotent_witness :
    patchField ("\n('song1\n   ".data ++ ('(' :: '\'' :: "album".data ++
        '\'' :: ' ' :: '"' :: "Abbey Road".data ++ ['"', ')']) ++
        "\n)".data) "album".data (.str "Abbey Road".data) =
      ("\n('song1\n   ".data ++ ('(' :: '\'' :: "album".data ++
        '\'' :: ' ' :: '"' :: "Abbey Road".data ++ ['"', ')']) ++
        "\n)".data, true) :=
  claim_C6_patch_idempotent "\n('song1\n   ".data "\n)".data "album".data
    "Abbey Road".data (by decide) (by decide) (by decide) (by decide)

/-- C9 witness: the amended span-shape theorem at a concrete text. -/
theorem claim_C9_entry_span_witness :
    ("\nx\n('akey (name \"x\"))\n".data)[2]? = some '\n' ∧
    ("\nx\n('akey (name \"x\"))\n".data)[3]? = some '(' ∧
    ∃ i, 3 ≤ i ∧ i < "\nx\n('akey (name \"x\"))\n".data.length ∧
      ("\nx\n('akey (name \"x\"))\n".data)[i]? = some ')' ∧
      scanClose ⟨0, false, false⟩ ("\nx\n('akey (name \"x\"))\n".data.drop 3) 3 =
        some i ∧
      21 = i + 1 + extendWs ("\nx\n('akey (name \"x\"))\n".data.drop (i + 1)) ∧
      21 ≤ "\nx\n('akey (name \"x\"))\n".data.length ∧
      (∀ j, i < j → j < 21 → ("\nx\n('akey (name \"x\"))\n".data)[j]? = some ' ' ∨
        ("\nx\n('akey (name \"x\"))\n".data)[j]? = some '\t') ∧
      (21 = "\nx\n('akey (name \"x\"))\n".data.length ∨
        ¬(("\nx\n('akey (name \"x\"))\n".data)[21]? = some ' ' ∨
          ("\nx\n('akey (name \"x\"))\n".data)[21]? = some '\t')) := by
  exact claim_C9_entry_span _ "akey".data 2 21 (by rfl)

end RockDb
